import Mathlib

/-!
kftm: identifier resolution, name whitelisting, metadata mapping, form encoding.

A shallow embedding of the pure parts of `main.go`, `kinopoisk/client.go` and
`qbitorrent/client.go`.

Go strings are modelled by Lean strings (sequences of Unicode code points), i.e. the
development covers well-formed UTF-8 text. Go's `int` is the 64-bit `int` of the usual
build targets. Library routines the program calls (`strconv.Atoi`, the `regexp` engine on the
two fixed patterns, `strings.Split`, `strings.Contains`, `strings.Join`, `fmt.Sprintf` with
`%d` and `%t`, `path.Ext`, `path.Dir`, `filepath.Join` with `/` as separator) are modelled by
their documented behaviour; `json.Marshal`, `xml.Marshal`, `humanize.Bytes`, `%f`,
`time.Time.Format` and `time.Time.Year` are taken as parameters.

The content step of the two workflows (`run`, `change`) is a function of the answers of the
outside (the controller and the operator) that returns the trace of what the step does and how
it ends.
-/

namespace Kftm

/-! ## Text helpers -/

/-- The ASCII decimal digits `0`..`9` (the regexp class `\d`, and the bytes `strconv` accepts). -/
def isDigit (c : Char) : Bool := decide ('0' ≤ c) && decide (c ≤ '9')

/-- Numeric value of a digit character (`ch - '0'`). -/
def digitVal (c : Char) : Nat := c.toNat - 48

/-- Value of a digit string read in base 10, most significant digit first. -/
def decimalValue (d : List Char) : Nat := d.foldl (fun n c => n * 10 + digitVal c) 0

/-- If the text begins with `lit`, the remainder after it. -/
def dropLiteral : List Char → List Char → Option (List Char)
  | [], s => some s
  | _ :: _, [] => none
  | l :: ls, c :: cs => if l = c then dropLiteral ls cs else none

/-! ## `whitelistString` (main.go) -/

/-- The items of the bracket expression of
`whitelistRegex = [^a-zA-Z\(\)0-9а-я-А-Я\ ]`, left to right, each as an inclusive range:
`a-z`, `A-Z`, `\(`, `\)`, `0-9`, `а-я`, the literal `-` (it follows a complete range, so it
opens no range itself), `А-Я`, and the escaped space. -/
def whitelistClass : List (Char × Char) :=
  [('a', 'z'), ('A', 'Z'), ('(', '('), (')', ')'), ('0', '9'), ('а', 'я'), ('-', '-'),
   ('А', 'Я'), (' ', ' ')]

/-- Membership of a character in a list of inclusive ranges. -/
def inRanges (rs : List (Char × Char)) (c : Char) : Bool :=
  rs.any (fun r => decide (r.1 ≤ c) && decide (c ≤ r.2))

/-- The pattern `whitelistRegex`: a negated class, matching exactly one character that is in
none of the listed ranges. -/
def whitelistRegex (c : Char) : Bool := !inRanges whitelistClass c

/-- `ReplaceAllString` for a pattern that matches single characters: every match is replaced
by `repl`, every other character is copied. -/
def replaceAllString (re : Char → Bool) (repl : List Char) : List Char → List Char
  | [] => []
  | c :: cs =>
    if re c then repl ++ replaceAllString re repl cs else c :: replaceAllString re repl cs

/-- `whitelistString(str) = whitelistRegex.ReplaceAllString(str, "")`. -/
def whitelistString (str : String) : String :=
  ⟨replaceAllString whitelistRegex [] str.data⟩

/-- ASCII letters. -/
def isAsciiLetter (c : Char) : Bool :=
  (decide ('a' ≤ c) && decide (c ≤ 'z')) || (decide ('A' ≤ c) && decide (c ≤ 'Z'))

/-- Letters of the Unicode Cyrillic block (U+0400..U+0481 and U+048A..U+04FF). -/
def isCyrillicLetter (c : Char) : Bool :=
  (decide (0x0400 ≤ c.toNat) && decide (c.toNat ≤ 0x0481)) ||
  (decide (0x048A ≤ c.toNat) && decide (c.toNat ≤ 0x04FF))

/-- The characters the specification says are retained: ASCII letters, Cyrillic letters,
digits, parentheses and spaces. -/
def specRetains (c : Char) : Bool :=
  isAsciiLetter c || isCyrillicLetter c || isDigit c || c == '(' || c == ')' || c == ' '

/-- The filter as the specification words it. -/
def whitelistSpec (s : String) : String := ⟨s.data.filter specRetains⟩

/-- The characters the code retains: ASCII letters, the Cyrillic letters U+0410..U+044F
(`А`..`я`), digits, parentheses, the space and the hyphen-minus. -/
def codeRetains (c : Char) : Bool :=
  isAsciiLetter c || (decide (0x0410 ≤ c.toNat) && decide (c.toNat ≤ 0x044F)) || isDigit c ||
  c == '(' || c == ')' || c == ' ' || c == '-'

/-- The characters the specification says are retained, with the hyphen-minus added. -/
def amendedRetains (c : Char) : Bool := specRetains c || c == '-'

/-- Whether every Cyrillic letter of a text lies in U+0410..U+044F, the two ranges `А-Я` and
`а-я` that the class of `whitelistRegex` names. -/
def cyrillicWithinClass (s : List Char) : Bool :=
  s.all (fun c =>
    !isCyrillicLetter c || (decide (0x0410 ≤ c.toNat) && decide (c.toNat ≤ 0x044F)))

/-! ## `parseKinopoiskUrl` (main.go) -/

/-- `strconv.IntSize` on the 64-bit build targets. -/
def intSize : Nat := 64

/-- The digit loop of `strconv`: reads base-10 digits into an accumulator and fails on the
first character that is not a digit. -/
def parseDigits : List Char → Nat → Option Nat
  | [], n => some n
  | c :: cs, n => if isDigit c then parseDigits cs (n * 10 + digitVal c) else none

/-- `strconv.Atoi(s)`, `none` standing for a non-nil error: an empty string is a syntax error,
one leading `+` or `-` is taken as the sign, what follows must be one or more decimal digits, and
the value must lie in `-2^63 .. 2^63 - 1`. -/
def Atoi (s : String) : Option Int :=
  match s.data with
  | [] => none
  | c :: rest =>
    let neg := c == '-'
    let body := if c == '-' || c == '+' then rest else c :: rest
    if body.isEmpty then none
    else
      match parseDigits body 0 with
      | none => none
      | some un =>
        if !neg && decide (2 ^ (intSize - 1) ≤ un) then none
        else if neg && decide (2 ^ (intSize - 1) < un) then none
        else some (if neg then -(un : Int) else (un : Int))

/-- The literal part of `kinopoiskUrlRegex` (`\.kinopoisk\.ru/film/`). -/
def kinopoiskUrlLiteral : List Char := ".kinopoisk.ru/film/".data

/-- A match of `\.kinopoisk\.ru/film/(\d+)` anchored at the start of the text: the literal, then
the longest run of digits (greedy `\d+`), which must not be empty. Returns the whole match and
the capture group. -/
def matchHere (s : List Char) : Option (List Char × List Char) :=
  match dropLiteral kinopoiskUrlLiteral s with
  | none => none
  | some rest =>
    let ds := rest.takeWhile isDigit
    if ds.isEmpty then none else some (kinopoiskUrlLiteral ++ ds, ds)

/-- `kinopoiskUrlRegex.FindStringSubmatch`: the leftmost match, tried at each position from the
left; `none` stands for the nil slice. -/
def FindStringSubmatch : List Char → Option (List Char × List Char)
  | [] => matchHere []
  | c :: cs =>
    match matchHere (c :: cs) with
    | some m => some m
    | none => FindStringSubmatch cs

/-- `parseKinopoiskUrl`: the input itself if `Atoi` accepts it, otherwise the digits captured
by `kinopoiskUrlRegex`, otherwise `-1`. -/
def parseKinopoiskUrl (url : String) : Int :=
  match Atoi url with
  | some id => id
  | none =>
    match FindStringSubmatch url.data with
    | none => -1
    | some m =>
      match Atoi ⟨m.2⟩ with
      | some id => id
      | none => -1

/-- The URL part the specification names: `/film/`. -/
def filmLiteral : List Char := "/film/".data

/-- A raw numeric identifier as the specification words it: a non-empty string of decimal
digits. -/
def isRawNumeric (s : List Char) : Bool := !s.isEmpty && s.all isDigit

/-- An optionally signed decimal numeral: one or more digits, possibly after one `+` or `-`. -/
def isSignedNumeric (s : List Char) : Bool :=
  isRawNumeric s ||
    (match s with
     | [] => false
     | c :: body => (c == '-' || c == '+') && isRawNumeric body)

/-- The identifier step of both workflows (`run` and `change`): the failure value `-1` ends
the run with the message of `log.Fatal`. -/
def resolveFilmId (kinopoiskUrl : String) : Except String Int :=
  let filmId := parseKinopoiskUrl kinopoiskUrl
  if filmId == -1 then .error "can not get kinopoisk film id" else .ok filmId

/-! ## Movie records (kinopoisk/client.go) -/

namespace kinopoisk

/-- `Country`, also used for genres. -/
structure Country where
  Name : String
deriving DecidableEq, Repr

/-- `Rating`, over the type `F` standing for `float64`. -/
structure Rating (F : Type) where
  Kp : F
  Imdb : F
  FilmCritics : F
  RussianFilmCritics : F
  Await : F

/-- `Backdrop`. -/
structure Backdrop where
  URL : String
  PreviewURL : String
deriving DecidableEq, Repr

/-- `Person`; the pointer-typed fields are optional. -/
structure Person where
  ID : Int
  Photo : String
  Name : Option String
  EnName : Option String
  Description : Option String
  Profession : String
  EnProfession : String
deriving DecidableEq, Repr

/-- The zero value of `Person`. -/
instance : Inhabited Person :=
  ⟨{ ID := 0, Photo := "", Name := none, EnName := none, Description := none,
     Profession := "", EnProfession := "" }⟩

/-- The time-typed fields of `Premiere`, over the type `T` standing for `time.Time`. -/
structure Premiere (T : Type) where
  Digital : T
  Russia : T
  World : T

/-- The fields of `Movie` that the program reads. -/
structure Movie (F T : Type) where
  ID : Int
  Name : String
  AlternativeName : String
  Description : String
  ShortDescription : String
  Slogan : String
  Rating : Kftm.kinopoisk.Rating F
  Votes : Kftm.kinopoisk.Rating F
  Poster : Backdrop
  Genres : List Country
  Countries : List Country
  Persons : List Person
  Premiere : Premiere T

end kinopoisk

/-! ## Sidecar records (nfo.go) -/

/-- `Rating` of the sidecar. -/
structure Rating where
  Text : String
  Name : String
  Max : String
  Default : String
  Value : String
  Votes : String
deriving DecidableEq, Repr

/-- `Ratings`. -/
structure Ratings where
  Text : String
  Rating : List Rating
deriving DecidableEq, Repr

/-- `Thumb`. -/
structure Thumb where
  Text : String
  Spoof : String
  Cache : String
  Aspect : String
  Preview : String
deriving DecidableEq, Repr

/-- `Actor`. -/
structure Actor where
  Text : String
  Name : String
  Role : String
  Order : String
  Thumb : String
deriving DecidableEq, Repr

/-- `MovieNfo` (the root element name is fixed by the type). -/
structure MovieNfo where
  Text : String
  Title : String
  Originaltitle : String
  Sorttitle : String
  Ratings : Ratings
  Outline : String
  Plot : String
  Tagline : String
  Thumb : List Thumb
  Genre : String
  Country : List String
  Director : String
  Premiered : String
  Year : String
  Studio : String
  Actor : List Actor
deriving DecidableEq, Repr

/-! ## The metadata mapper (main.go) -/

/-- A run-time panic of the Go program. -/
inductive Panic where
  | nilPointerDereference
deriving DecidableEq, Repr

/-- `TakeOne`: the first item the selector accepts and `true`, or the zero value and `false`. -/
def TakeOne {T : Type} [Inhabited T] (slice : List T) (selector : T → Bool) : T × Bool :=
  match slice with
  | [] => (default, false)
  | item :: rest => if selector item then (item, true) else TakeOne rest selector

/-- `Filter`: the loop appends each accepted item to the result. -/
def Filter {T : Type} (slice : List T) (selector : T → Bool) : List T :=
  slice.foldl (fun result item => if selector item then result ++ [item] else result) []

/-- `Select`: the loop appends the image of each item to the result. -/
def Select {T V : Type} (slice : List T) (f : T → V) : List V :=
  slice.foldl (fun result item => result ++ [f item]) []

/-- `flat`: the pointed-to string, or the empty string for nil. -/
def flat (item : Option String) : String :=
  match item with
  | none => ""
  | some s => s

/-- `strings.Join`. -/
def Join (elems : List String) (sep : String) : String :=
  match elems with
  | [] => ""
  | first :: rest => rest.foldl (fun b s => b ++ sep ++ s) first

/-- `KinopoiskDtoToNfo`. `sprintf_f` stands for `fmt.Sprintf("%f", x)` and `format` for
`t.Format("2006-01-02")`. The only operation that can fail is the dereference
`*director.Name`, which panics on a nil pointer. -/
def KinopoiskDtoToNfo {F T : Type} (sprintf_f : F → String) (format : T → String)
    (dto : kinopoisk.Movie F T) : Except Panic MovieNfo :=
  let director := (TakeOne dto.Persons (fun item => item.EnProfession == "director")).1
  let actors := Filter dto.Persons (fun item => item.EnProfession == "actor")
  let actorDto := Select actors (fun item =>
    ({ Text := "", Name := flat item.Name, Role := flat item.Description, Order := "",
       Thumb := item.Photo } : Actor))
  match director.Name with
  | none => .error Panic.nilPointerDereference
  | some directorName =>
    .ok
      { Text := ""
        Title := dto.Name
        Originaltitle := dto.AlternativeName
        Sorttitle := ""
        Ratings :=
          { Text := ""
            Rating :=
              [ { Text := "", Name := "kinopoisk", Max := "10", Value := sprintf_f dto.Rating.Kp,
                  Default := "true", Votes := sprintf_f dto.Votes.Kp },
                { Text := "", Name := "imdb", Max := "10", Value := sprintf_f dto.Rating.Imdb,
                  Default := "true", Votes := sprintf_f dto.Votes.Imdb } ] }
        Outline := dto.ShortDescription
        Plot := dto.Description
        Tagline := dto.Slogan
        Thumb := []
        Genre := Join (Select dto.Genres (fun item => item.Name)) ", "
        Country := Select dto.Countries (fun item => item.Name)
        Director := directorName
        Premiered := format dto.Premiere.World
        Year := ""
        Studio := ""
        Actor := actorDto }

/-- A movie with the given persons and genres and otherwise zero-valued fields; floats and
times are left uninterpreted. -/
def sampleMovie (persons : List kinopoisk.Person) (genres : List String) :
    kinopoisk.Movie Unit Unit :=
  { ID := 0, Name := "", AlternativeName := "", Description := "", ShortDescription := "",
    Slogan := "",
    Rating := { Kp := (), Imdb := (), FilmCritics := (), RussianFilmCritics := (), Await := () },
    Votes := { Kp := (), Imdb := (), FilmCritics := (), RussianFilmCritics := (), Await := () },
    Poster := { URL := "", PreviewURL := "" },
    Genres := genres.map (fun g => { Name := g }),
    Countries := [],
    Persons := persons,
    Premiere := { Digital := (), Russia := (), World := () } }

/-- A person with the given profession tag and optional display name. -/
def samplePerson (profession : String) (name : Option String) : kinopoisk.Person :=
  { ID := 0, Photo := "", Name := name, EnName := none, Description := none,
    Profession := "", EnProfession := profession }

/-! ## The form encoder `StructToMap` (qbitorrent/client.go) -/

namespace qbitorrent

/-- What reflection reports about a struct field: its name, its package path (empty exactly
for exported fields) and the value of its `json` tag (`field.Tag.Get("json")`). -/
structure StructField where
  Name : String
  PkgPath : String
  jsonTag : String
deriving DecidableEq, Repr

/-- Go values as the encoder sees them through `reflect`, by kind. `int` covers the kinds
`Int` .. `Int64`, `uint` the kinds `Uint` .. `Uint64`. A float (`Float32`, `Float64`) is
represented by the two observations the encoder makes of it: whether it equals 0 and its `%f`
text. `other` stands for the remaining kinds (arrays, complex numbers, `uintptr`, unsafe
pointers), none of which the encoder or `isZero` names. -/
inductive Value where
  | string (s : String)
  | int (i : Int)
  | uint (u : Nat)
  | float (isZero : Bool) (text : String)
  | bool (b : Bool)
  | nilPointer
  | pointer (elem : Value)
  | nilInterface
  | iface (elem : Value)
  | nilSlice
  | slice (elems : List Value)
  | nilMap
  | map (entries : List (Value × Value))
  | chan (isNil : Bool)
  | func (isNil : Bool)
  | struct (fields : List (StructField × Value))
  | other

mutual
/-- `isZero`, by kind; for a struct, every field must be zero. -/
def isZero : Value → Bool
  | .string s => s.length == 0
  | .int i => i == 0
  | .uint u => u == 0
  | .float z _ => z
  | .bool b => !b
  | .nilPointer => true
  | .pointer _ => false
  | .nilInterface => true
  | .iface _ => false
  | .nilSlice => true
  | .slice _ => false
  | .nilMap => true
  | .map _ => false
  | .chan isNil => isNil
  | .func isNil => isNil
  | .struct fields => fieldsZero fields
  | .other => false
/-- The loop of the struct case of `isZero`. -/
def fieldsZero : List (StructField × Value) → Bool
  | [] => true
  | f :: rest => if !isZero f.2 then false else fieldsZero rest
end

/-- The result map, as an association list with at most one entry per key. -/
abbrev FormMap := List (String × String)

/-- The value stored under a key, if any (`m[k]`). -/
def FormMap.get (m : FormMap) (k : String) : Option String :=
  match m with
  | [] => none
  | e :: rest => if e.1 = k then some e.2 else FormMap.get rest k

/-- The assignment `m[k] = v`: replaces the entry of `k` or adds one. -/
def FormMap.set (m : FormMap) (k v : String) : FormMap :=
  m.filter (fun e => e.1 != k) ++ [(k, v)]

/-- `strings.Contains`. -/
def Contains : List Char → List Char → Bool
  | [], substr => (dropLiteral substr []).isSome
  | c :: cs, substr => (dropLiteral substr (c :: cs)).isSome || Contains cs substr

/-- `strings.Split(s, ",")[0]`: the text before the first comma (all of it if there is none). -/
def splitFirst (s : String) : String := ⟨s.data.takeWhile (fun c => c != ',')⟩

/-- `fmt.Sprintf("%d", u)` for an unsigned value: its base-10 digits. -/
def sprintfUint (u : Nat) : String := ⟨Nat.toDigits 10 u⟩

/-- `fmt.Sprintf("%d", i)` for a signed value: a minus sign for negatives, then the base-10
digits of the magnitude. -/
def sprintfInt (i : Int) : String :=
  if i < 0 then ⟨'-' :: Nat.toDigits 10 i.natAbs⟩ else ⟨Nat.toDigits 10 i.natAbs⟩

/-- `fmt.Sprintf("%t", b)`. -/
def sprintfBool (b : Bool) : String := if b then "true" else "false"

/-- The `switch fieldValue.Kind()` of `StructToMap`: the string form of a value. The case
`reflect.Pointer` has an empty body and leaves the empty string; the default case calls
`json.Marshal`, passed in as `marshal`. -/
def strValue (marshal : Value → Except String String) : Value → Except String String
  | .string s => .ok s
  | .int i => .ok (sprintfInt i)
  | .uint u => .ok (sprintfUint u)
  | .float _ text => .ok text
  | .bool b => .ok (sprintfBool b)
  | .nilPointer => .ok ""
  | .pointer _ => .ok ""
  | v => marshal v

/-- One iteration of the field loop of `StructToMap`. -/
def encodeField (marshal : Value → Except String String) (result : FormMap)
    (field : StructField) (fieldValue : Value) : Except String FormMap :=
  if field.PkgPath != "" then .ok result
  else if field.jsonTag == "" then .ok result
  else
    let jsonFieldName := splitFirst field.jsonTag
    let omitEmpty := Contains field.jsonTag.data "omitempty".data
    match fieldValue with
    | .nilPointer => if omitEmpty then .ok result else .ok (result.set jsonFieldName "")
    | _ =>
      let fieldValue := match fieldValue with
        | .pointer elem => elem
        | v => v
      if omitEmpty && isZero fieldValue then .ok result
      else
        match strValue marshal fieldValue with
        | .error e => .error ("failed to marshal field " ++ field.Name ++ ": " ++ e)
        | .ok str => .ok (result.set jsonFieldName str)

/-- The field loop of `StructToMap`, in declaration order; the first error ends it. -/
def encodeFields (marshal : Value → Except String String) :
    FormMap → List (StructField × Value) → Except String FormMap
  | result, [] => .ok result
  | result, f :: rest =>
    match encodeField marshal result f.1 f.2 with
    | .error e => .error e
    | .ok result2 => encodeFields marshal result2 rest

/-- `StructToMap`: a pointer argument is dereferenced once; anything but a struct is an
error. The code's message also names the kind it found (`expected a struct, got <kind>`); the
kind is left out of the text here, which nothing below depends on. -/
def StructToMap (marshal : Value → Except String String) (obj : Value) :
    Except String FormMap :=
  let v := match obj with
    | .pointer elem => elem
    | v => v
  match v with
  | .struct fields => encodeFields marshal [] fields
  | _ => .error "expected a struct"

/-- The wire name of a field. -/
def wireName (f : StructField × Value) : String := splitFirst f.1.jsonTag

/-- Whether the tag of a field asks for omission of empty values. -/
def omitEmpty (f : StructField × Value) : Bool := Contains f.1.jsonTag.data "omitempty".data

/-- The fields that pass the first two tests of the loop: exported and carrying a `json`
tag. -/
def isWireField (f : StructField × Value) : Bool := f.1.PkgPath == "" && f.1.jsonTag != ""

/-- The wire names of the exported, tagged fields, in declaration order. -/
def wireNames (fields : List (StructField × Value)) : List String :=
  (fields.filter isWireField).map wireName

/-- A value held by a field directly or behind a non-nil pointer. -/
def Holds (fieldValue x : Value) : Prop := fieldValue = x ∨ fieldValue = .pointer x

/-- An exported field with the given name, tag and value. -/
def exportedField (name tag : String) (v : Value) : StructField × Value :=
  ({ Name := name, PkgPath := "", jsonTag := tag }, v)

/-- `json.Marshal` restricted to containers without elements: a nil slice or map encodes as
`null`, an allocated empty slice as `[]`, an allocated empty map as `{}`. Other values are not
covered by this table. -/
def marshalEmptyContainer : Value → Except String String
  | .nilSlice => .ok "null"
  | .slice [] => .ok "[]"
  | .nilMap => .ok "null"
  | .map [] => .ok "\x7b\x7d"
  | _ => .error "json: value outside the table"

/-- The entry a wire field contributes to the result: `none` when the loop skips it, the
text stored under its wire name otherwise. -/
def fieldEntry (marshal : Value → Except String String) (f : StructField × Value) :
    Except String (Option String) :=
  match f.2 with
  | .nilPointer => if omitEmpty f then .ok none else .ok (some "")
  | v =>
    let x := match v with
      | .pointer elem => elem
      | w => w
    if omitEmpty f && isZero x then .ok none
    else
      match strValue marshal x with
      | .error e => .error ("failed to marshal field " ++ f.1.Name ++ ": " ++ e)
      | .ok str => .ok (some str)

/-- Whether the loop skips a wire field under the nil rule or the omit-when-empty rule. -/
def isSkipped (f : StructField × Value) : Bool :=
  omitEmpty f &&
    (match f.2 with
     | .nilPointer => true
     | .pointer elem => isZero elem
     | v => isZero v)

/-- The request of the specification's example, `Category` holding the empty string and
`AutoTMM` holding `true`, both optional and both omit-when-empty. -/
def exampleRequest : Value :=
  .struct [exportedField "Category" "category,omitempty" (.pointer (.string "")),
           exportedField "AutoTMM" "autoTMM,omitempty" (.pointer (.bool true))]

/-- A string is the base-10 numeral of an integer: a minus sign exactly for negatives, then
one or more decimal digits and nothing else, whose value is the magnitude. -/
def IsDecimalNumeral (s : String) (i : Int) : Prop :=
  ∃ ds : List Char, ds ≠ [] ∧ (∀ c ∈ ds, isDigit c = true) ∧ decimalValue ds = i.natAbs ∧
    s.data = if i < 0 then '-' :: ds else ds

end qbitorrent

/-! ## Path helpers (`path`, `path/filepath` with `/` as separator) -/

/-- The loop of `path.Ext`, walking from the end of the path: `suffix` is the text already
passed. A slash ends the search with the empty string, a dot yields the suffix from that dot. -/
def extLoop : List Char → List Char → List Char
  | [], _ => []
  | c :: rest, suffix =>
    if c = '/' then [] else if c = '.' then '.' :: suffix else extLoop rest (c :: suffix)

/-- `path.Ext`. -/
def Ext (path : String) : String := ⟨extLoop path.data.reverse []⟩

/-- The elements of a path: the text between slashes (empty elements included). -/
def pathElements : List Char → List (List Char)
  | [] => [[]]
  | c :: cs =>
    if c = '/' then [] :: pathElements cs
    else
      match pathElements cs with
      | [] => [[c]]
      | e :: es => (c :: e) :: es

/-- The backtracking of `path.Clean` on a `..` element: from position `w` the write index
moves left while it is beyond `dotdot` and not on a slash. -/
def backtrackTo (out : List Char) (dotdot : Nat) : Nat → Nat
  | 0 => 0
  | w + 1 => if dotdot < w + 1 && out.getD (w + 1) '/' != '/' then backtrackTo out dotdot w else w + 1

/-- One element of the main loop of `path.Clean`; the state is the output written so far
and the index `dotdot` that backtracking must not pass. -/
def cleanStep (rooted : Bool) (st : List Char × Nat) (element : List Char) : List Char × Nat :=
  if element = [] then st
  else if element = ['.'] then st
  else if element = ['.', '.'] then
    if st.2 < st.1.length then
      (st.1.take (backtrackTo st.1 st.2 (st.1.length - 1)), st.2)
    else if !rooted then
      let out := (if 0 < st.1.length then st.1 ++ ['/'] else st.1) ++ ['.', '.']
      (out, out.length)
    else st
  else
    let out :=
      if (rooted && st.1.length != 1) || (!rooted && st.1.length != 0) then st.1 ++ ['/']
      else st.1
    (out ++ element, st.2)

/-- `path.Clean`: the shortest equivalent path by lexical processing. -/
def Clean (path : List Char) : List Char :=
  match path with
  | [] => ['.']
  | c :: cs =>
    let rooted := c == '/'
    let start : List Char × Nat := if rooted then (['/'], 1) else ([], 0)
    let out := ((pathElements (if rooted then cs else c :: cs)).foldl (cleanStep rooted) start).1
    if out.isEmpty then ['.'] else out

/-- The directory part of `path.Split`: the path up to and including its last slash. -/
def splitDir (path : List Char) : List Char :=
  (path.reverse.dropWhile (fun c => c != '/')).reverse

/-- `path.Dir`: the directory part, cleaned. -/
def Dir (path : String) : String := ⟨Clean (splitDir path.data)⟩

/-- `filepath.Join` where the separator is `/`: the elements from the first non-empty one
on, joined by slashes and cleaned; the empty string when every element is empty. -/
def filepathJoin : List String → String
  | [] => ""
  | e :: rest =>
    if e = "" then filepathJoin rest
    else ⟨Clean (rest.foldl (fun b s => b ++ "/" ++ s) e).data⟩

/-! ## The content step of the workflows (main.go, qbitorrent/client.go) -/

namespace qbitorrent

/-- Modelled from the spec: the declaration of `TorrentsFiles` is not among the sources. An
entry of a content listing has a name (the path within the torrent) and a size in bytes;
main.go reads both through a pointer (`*file.Name`, `*item.Size`). -/
structure TorrentsFiles where
  Name : Option String
  Size : Option Int
deriving DecidableEq, Repr

/-- Modelled from the spec: the declaration of `RenameTorrentFiles` is not among the sources.
The rename requests carry the form fields `hash`, `oldPath` and `newPath`; main.go fills the
three fields with strings. -/
structure RenameTorrentFiles where
  Hash : String
  OldPath : String
  NewPath : String
deriving DecidableEq, Repr

/-- What `c.post` and the decoding of the body deliver for one request to `/torrents/files`:
a failure of the request itself, or a response with its status code and the outcome of decoding
its body as a list of files. -/
inductive PostResult where
  | failure (err : String)
  | response (statusCode : Nat) (body : Except String (List TorrentsFiles))

/-- `wrapWrongStatusCode`. -/
def wrapWrongStatusCode (statusCode : Nat) : String :=
  "wrong status code " ++ sprintfUint statusCode ++ ": bad response"

/-- `Client.GetTorrentContent`, as a function of what the request delivers. -/
def GetTorrentContent (r : PostResult) : Except String (List TorrentsFiles) :=
  match r with
  | .failure err => .error err
  | .response statusCode body =>
    if statusCode != 200 then .error (wrapWrongStatusCode statusCode)
    else
      match body with
      | .error e => .error ("decode request body: " ++ e)
      | .ok t => .ok t

end qbitorrent

/-- The two run modes: `run` creates the torrent, `change` attaches to an existing one. -/
inductive Mode where
  | create
  | attach
deriving DecidableEq, Repr

/-- What the content step does to the outside, in order. -/
inductive Event where
  | getTorrentContent (hash : String)
  | sleep (seconds : Nat)
  | print (text : String)
  | scanln
  | renameFile (data : qbitorrent.RenameTorrentFiles)
  | renameFolder (data : qbitorrent.RenameTorrentFiles)
deriving DecidableEq, Repr

/-- How a step ends: normally, by `log.Fatal`, by a run-time panic, or not at all because
the scripted answers of the outside are used up while the step still waits. -/
inductive Ending (α : Type) where
  | done (a : α)
  | fatal (msg : String)
  | panic
  | waiting
deriving DecidableEq, Repr

/-- The answers of the outside to the content step: the successive results of the requests
to `/torrents/files`, the successive results of `fmt.Scanln(&index)` (`none` for an error, the
number read otherwise), and the errors, if any, of the two rename calls. -/
structure World where
  contents : List qbitorrent.PostResult
  scans : List (Option Int)
  renameFileErr : Option String
  renameFolderErr : Option String

/-- The listing loop of `PickFile`: one line per file; `false` reports a nil dereference,
before which nothing of that line is printed. -/
def printListing (humanizeBytes : Nat → String) :
    List qbitorrent.TorrentsFiles → Nat → List Event × Bool
  | [], _ => ([], true)
  | item :: rest, index =>
    match item.Name, item.Size with
    | some name, some size =>
      let line := qbitorrent.sprintfInt (index + 1) ++ ") " ++ name ++ "\t" ++
        humanizeBytes (size % 2 ^ 64).toNat ++ "\n"
      let r := printListing humanizeBytes rest (index + 1)
      (Event.print line :: r.1, r.2)
    | _, _ => ([], false)

/-- The reading loop of `PickFile`: repeats until `Scanln` delivers a number between 1 and
the number of files. -/
def readIndex (count : Nat) : List (Option Int) → List Event × Option Int
  | [] => ([Event.scanln], none)
  | none :: rest =>
    let r := readIndex count rest
    (Event.scanln :: Event.print "wrong input, write index:\n" :: r.1, r.2)
  | some index :: rest =>
    if index < 1 ∨ index > count then
      let r := readIndex count rest
      (Event.scanln :: Event.print "index is too small or too big. write index:\n" :: r.1, r.2)
    else ([Event.scanln], some index)

/-- `PickFile`: prints the prompt and the listing, reads an index, returns that file. -/
def PickFile (humanizeBytes : Nat → String) (files : List qbitorrent.TorrentsFiles)
    (scans : List (Option Int)) : List Event × Ending qbitorrent.TorrentsFiles :=
  let listing := printListing humanizeBytes files 0
  if !listing.2 then (Event.print "pick movie file:\n" :: listing.1, Ending.panic)
  else
    let reading := readIndex files.length scans
    let events := Event.print "pick movie file:\n" :: (listing.1 ++ reading.1)
    match reading.2 with
    | none => (events, Ending.waiting)
    | some index =>
      match files.get? (index - 1).toNat with
      | none => (events, Ending.panic)
      | some file => (events, Ending.done file)

/-- The choice of the file in the loop body: `run` always calls `PickFile`; `change` takes
`content[0]` and calls `PickFile` only when the listing does not have exactly one file. -/
def selectFile (mode : Mode) (humanizeBytes : Nat → String)
    (content : List qbitorrent.TorrentsFiles) (scans : List (Option Int)) :
    List Event × Ending qbitorrent.TorrentsFiles :=
  match mode with
  | .create => PickFile humanizeBytes content scans
  | .attach =>
    match content with
    | [] => ([], Ending.panic)
    | first :: _ =>
      if content.length != 1 then PickFile humanizeBytes content scans
      else ([], Ending.done first)

/-- The renaming in the loop body, the same in both workflows: the file is renamed, a failure
is fatal; the folder is renamed when the listing does not have exactly one file. -/
def renameSelected (hash name : String) (content : List qbitorrent.TorrentsFiles)
    (file : qbitorrent.TorrentsFiles) (renameFileErr renameFolderErr : Option String) :
    List Event × Ending Unit :=
  match file.Name with
  | none => ([], Ending.panic)
  | some path =>
    let fileExt := Ext path
    let fileRequest := Event.renameFile
      { Hash := hash, OldPath := path, NewPath := name ++ "/" ++ name ++ fileExt }
    match renameFileErr with
    | some err => ([fileRequest], Ending.fatal err)
    | none =>
      if content.length != 1 then
        let folderRequest := Event.renameFolder
          { Hash := hash, OldPath := Dir path, NewPath := name }
        match renameFolderErr with
        | some err => ([fileRequest, folderRequest], Ending.fatal err)
        | none => ([fileRequest, folderRequest], Ending.done ())
      else ([fileRequest], Ending.done ())

/-- The loop body once the listing is not empty: choose the file, then rename. -/
def handleContent (mode : Mode) (humanizeBytes : Nat → String) (hash name : String)
    (content : List qbitorrent.TorrentsFiles) (scans : List (Option Int))
    (renameFileErr renameFolderErr : Option String) : List Event × Ending Unit :=
  let selection := selectFile mode humanizeBytes content scans
  match selection.2 with
  | .done file =>
    let renamed := renameSelected hash name content file renameFileErr renameFolderErr
    (selection.1 ++ renamed.1, renamed.2)
  | .fatal msg => (selection.1, Ending.fatal msg)
  | .panic => (selection.1, Ending.panic)
  | .waiting => (selection.1, Ending.waiting)

/-- The content loop of `run` and `change` (`for { content, err := GetTorrentContent ... }`):
an error is fatal, an empty listing sleeps one second and polls again, a non-empty listing is
handled and ends the loop. -/
def contentLoop (mode : Mode) (humanizeBytes : Nat → String) (hash name : String)
    (scans : List (Option Int)) (renameFileErr renameFolderErr : Option String) :
    List qbitorrent.PostResult → List Event × Ending Unit
  | [] => ([Event.getTorrentContent hash], Ending.waiting)
  | r :: rest =>
    match qbitorrent.GetTorrentContent r with
    | .error err => ([Event.getTorrentContent hash], Ending.fatal err)
    | .ok content =>
      if content.length == 0 then
        let later := contentLoop mode humanizeBytes hash name scans renameFileErr
          renameFolderErr rest
        (Event.getTorrentContent hash :: Event.sleep 1 :: later.1, later.2)
      else
        let handled := handleContent mode humanizeBytes hash name content scans renameFileErr
          renameFolderErr
        (Event.getTorrentContent hash :: handled.1, handled.2)

/-- The content step of a workflow against a scripted outside. -/
def contentStep (mode : Mode) (humanizeBytes : Nat → String) (hash name : String)
    (world : World) : List Event × Ending Unit :=
  contentLoop mode humanizeBytes hash name world.scans world.renameFileErr
    world.renameFolderErr world.contents

/-- The name computed once per run:
`whitelistString(fmt.Sprintf("%s (%d)", movie.Name, movie.Premiere.World.Year()))`, with `year`
standing for `time.Time.Year`. -/
def normalizedName {F T : Type} (year : T → Int) (movie : kinopoisk.Movie F T) : String :=
  whitelistString (movie.Name ++ " (" ++ qbitorrent.sprintfInt (year movie.Premiere.World) ++ ")")

/-- The number of requests to `/torrents/files` in a trace. -/
def pollCount (events : List Event) : Nat :=
  events.countP (fun e => match e with
    | .getTorrentContent _ => true
    | _ => false)

/-- Whether an event is a prompt line or a read of operator input. -/
def isOperatorEvent (e : Event) : Bool :=
  match e with
  | .print _ => true
  | .scanln => true
  | _ => false

/-- Whether an event is a folder rename request. -/
def isRenameFolder (e : Event) : Bool :=
  match e with
  | .renameFolder _ => true
  | _ => false

/-- The trace of `k` polls that each found an empty listing: a request, then one second of
sleep, `k` times. -/
def waitingTrace (hash : String) : Nat → List Event
  | 0 => []
  | k + 1 => Event.getTorrentContent hash :: Event.sleep 1 :: waitingTrace hash k

/-- `humanize.Bytes` on sizes below 1000, which it prints as the number followed by ` B`;
it is used for the sample listings only, whose sizes are that small. -/
def sampleHumanize (size : Nat) : String := qbitorrent.sprintfUint size ++ " B"

/-- A listing entry with the given path and size. -/
def sampleFile (path : String) (size : Int) : qbitorrent.TorrentsFiles :=
  { Name := some path, Size := some size }

/-- A response with status 200 whose body decodes to the given listing. -/
def listingResponse (files : List qbitorrent.TorrentsFiles) : qbitorrent.PostResult :=
  .response 200 (.ok files)

/-! ## Writing the sidecar (main.go) -/

/-- `xml.Header`. -/
def xmlHeader : String := "<?xml version=\"1.0\" encoding=\"UTF-8\"?>\n"

/-- The arguments of one call of `os.WriteFile`. -/
structure FileWrite where
  path : String
  data : String
  perm : Nat
deriving DecidableEq, Repr

/-- The sidecar write of `change`: the document is `xml.Header` followed by the output of
`xml.Marshal`, passed in as `xmlMarshal`; a marshalling error is fatal. -/
def sidecarChange (xmlMarshal : MovieNfo → Except String String) (realSavePath name : String)
    (nfo : MovieNfo) : Except String FileWrite :=
  let nfoPath := filepathJoin [realSavePath, name, name ++ ".nfo"]
  match xmlMarshal nfo with
  | .error err => .error err
  | .ok nfoData => .ok { path := nfoPath, data := xmlHeader ++ nfoData, perm := 0o755 }

/-- The sidecar write of `run`: the document is the output of `xml.Marshal` as it is; the
write is repeated with the same arguments until it succeeds. -/
def sidecarRun (xmlMarshal : MovieNfo → Except String String) (realSavePath name : String)
    (nfo : MovieNfo) : Except String FileWrite :=
  let nfoPath := filepathJoin [realSavePath, name, name ++ ".nfo"]
  match xmlMarshal nfo with
  | .error err => .error err
  | .ok nfoData => .ok { path := nfoPath, data := nfoData, perm := 0o755 }

/-- The sidecar write of a mode. -/
def writeSidecar (mode : Mode) (xmlMarshal : MovieNfo → Except String String)
    (realSavePath name : String) (nfo : MovieNfo) : Except String FileWrite :=
  match mode with
  | .create => sidecarRun xmlMarshal realSavePath name nfo
  | .attach => sidecarChange xmlMarshal realSavePath name nfo

/-- The extension as the specification words it: `ext` is the suffix of the last element of
`path` that starts at the final dot of that element, and is empty when the element has no dot.
The last element is what follows the last slash. -/
def IsExtOf (path ext : List Char) : Prop :=
  ∃ dir last : List Char, path = dir ++ last ∧ '/' ∉ last ∧
    (dir = [] ∨ dir.getLast? = some '/') ∧
    ((∃ stem tail : List Char, last = stem ++ '.' :: tail ∧ '.' ∉ tail ∧ ext = '.' :: tail) ∨
      ('.' ∉ last ∧ ext = []))

/-! # Theorems -/

/-! ## Theorems: `whitelistString` -/

theorem char_le_iff (c d : Char) : c ≤ d ↔ c.toNat ≤ d.toNat := Iff.rfl

theorem char_eq_iff (c d : Char) : c = d ↔ c.toNat = d.toNat := by
  constructor
  · intro h; rw [h]
  · intro h
    apply Char.ext
    apply UInt32.ext
    exact h

/-- The negated class of `whitelistRegex` rejects exactly the characters in `codeRetains`. -/
theorem whitelistRegex_eq (c : Char) : whitelistRegex c = !codeRetains c := by
  have h : inRanges whitelistClass c = codeRetains c := by
    rw [Bool.eq_iff_iff]
    simp only [inRanges, whitelistClass, List.any_cons, List.any_nil, codeRetains,
      isAsciiLetter, isDigit, Bool.or_eq_true, Bool.and_eq_true, decide_eq_true_eq,
      beq_iff_eq, Bool.or_false, char_le_iff, char_eq_iff]
    have e1 : 'a'.toNat = 97 := rfl
    have e2 : 'z'.toNat = 122 := rfl
    have e3 : 'A'.toNat = 65 := rfl
    have e4 : 'Z'.toNat = 90 := rfl
    have e5 : '('.toNat = 40 := rfl
    have e6 : ')'.toNat = 41 := rfl
    have e7 : '0'.toNat = 48 := rfl
    have e8 : '9'.toNat = 57 := rfl
    have e9 : 'а'.toNat = 1072 := rfl
    have e10 : 'я'.toNat = 1103 := rfl
    have e11 : '-'.toNat = 45 := rfl
    have e12 : 'А'.toNat = 1040 := rfl
    have e13 : 'Я'.toNat = 1071 := rfl
    have e14 : ' '.toNat = 32 := rfl
    rw [e1, e2, e3, e4, e5, e6, e7, e8, e9, e10, e11, e12, e13, e14]
    omega
  simp [whitelistRegex, h]

theorem replaceAllString_nil_eq_filter (re : Char → Bool) (s : List Char) :
    replaceAllString re [] s = s.filter (fun c => !re c) := by
  induction s with
  | nil => rfl
  | cons c cs ih =>
    by_cases h : re c = true
    · simp [replaceAllString, h, ih]
    · simp [replaceAllString, h, ih]

/-- The filter of the code, character by character: `whitelistString s` keeps exactly the
characters of `s` that `codeRetains` accepts, unchanged and in their order. -/
theorem whitelistString_filter_codeRetains (s : String) :
    whitelistString s = ⟨s.data.filter codeRetains⟩ := by
  unfold whitelistString
  rw [replaceAllString_nil_eq_filter]
  congr 1
  apply List.filter_congr
  intro c _
  rw [whitelistRegex_eq, Bool.not_not]

/-- On a character whose being a Cyrillic letter puts it in U+0410..U+044F, the code retains
what the specification lists, and the hyphen-minus. -/
theorem codeRetains_eq_amended (c : Char)
    (h : (!isCyrillicLetter c || (decide (0x0410 ≤ c.toNat) && decide (c.toNat ≤ 0x044F))) = true) :
    codeRetains c = amendedRetains c := by
  have hcy : isCyrillicLetter c = (decide (0x0410 ≤ c.toNat) && decide (c.toNat ≤ 0x044F)) := by
    by_cases hr : 0x0410 ≤ c.toNat ∧ c.toNat ≤ 0x044F
    · have h1 : 0x0400 ≤ c.toNat := by omega
      have h2 : c.toNat ≤ 0x0481 := by omega
      simp [isCyrillicLetter, hr.1, hr.2, h1, h2]
    · have hd : (decide (0x0410 ≤ c.toNat) && decide (c.toNat ≤ 0x044F)) = false := by
        simpa using hr
      rw [hd] at h ⊢
      simpa using h
  simp only [codeRetains, amendedRetains, specRetains, hcy]

/-- C3 (as amended): for every string `s` whose Cyrillic letters all lie in U+0410..U+044F,
`whitelistString s` is `s` with exactly those characters removed that are not an ASCII letter, a
Cyrillic letter, a decimal digit, a parenthesis, a space or a hyphen-minus; the retained characters
are unchanged and in their original order, and nothing is put in place of a removed character. -/
theorem whitelistString_keeps_whitelisted (s : String)
    (h : cyrillicWithinClass s.data = true) :
    whitelistString s = ⟨s.data.filter amendedRetains⟩ := by
  rw [whitelistString_filter_codeRetains]
  congr 1
  apply List.filter_congr
  intro c hc
  exact codeRetains_eq_amended c ((List.all_eq_true.mp h) c hc)

/-- C3 (witness): the title `Брат-2: Return (2000)` loses its colon and keeps its letters,
digits, parentheses, spaces and hyphen. -/
theorem whitelistString_keeps_whitelisted_witness :
    whitelistString "Брат-2: Return (2000)" = "Брат-2 Return (2000)" :=
  (whitelistString_keeps_whitelisted "Брат-2: Return (2000)" (by decide)).trans (by decide)

/-- C3 (counterexample): on `a-b` the code keeps the hyphen, which the specification's list of
retained characters does not contain. -/
theorem whitelistString_differs_from_spec :
    whitelistString "a-b" = "a-b" ∧ whitelistSpec "a-b" = "ab" := by
  decide

/-- The class of `whitelistRegex` names the ranges `а-я` and `А-Я` only, which miss the letters
`ё` (U+0451) and `Ё` (U+0401) of the same alphabet: the code drops them from a title. -/
theorem whitelistString_drops_yo :
    whitelistString "Ёлки (2010)" = "лки (2010)" ∧ whitelistString "ёж" = "ж" := by
  decide

/-! ## Theorems: `parseKinopoiskUrl` -/

theorem parseDigits_of_digits (d : List Char) (h : ∀ c ∈ d, isDigit c = true) (n : Nat) :
    parseDigits d n = some (d.foldl (fun n c => n * 10 + digitVal c) n) := by
  induction d generalizing n with
  | nil => rfl
  | cons c cs ih =>
    have hc : isDigit c = true := h c (List.mem_cons_self _ _)
    simp only [parseDigits, hc, if_true, List.foldl_cons]
    exact ih (fun x hx => h x (List.mem_cons_of_mem _ hx)) _

theorem parseDigits_some_digits (d : List Char) (n v : Nat) (h : parseDigits d n = some v) :
    ∀ c ∈ d, isDigit c = true := by
  induction d generalizing n with
  | nil => intro c hc; cases hc
  | cons x xs ih =>
    by_cases hx : isDigit x = true
    · simp only [parseDigits, hx, if_true] at h
      intro c hc
      rcases List.mem_cons.mp hc with rfl | hc
      · exact hx
      · exact ih _ h c hc
    · simp [parseDigits, hx] at h

theorem isDigit_ne_sign (c : Char) (h : isDigit c = true) : (c == '-') = false ∧ (c == '+') = false := by
  simp only [isDigit, Bool.and_eq_true, decide_eq_true_eq, char_le_iff] at h
  have e1 : '0'.toNat = 48 := rfl
  have e2 : '9'.toNat = 57 := rfl
  rw [e1, e2] at h
  constructor
  · rw [beq_eq_false_iff_ne]
    intro hc
    rw [hc] at h
    revert h
    decide
  · rw [beq_eq_false_iff_ne]
    intro hc
    rw [hc] at h
    revert h
    decide

/-- `Atoi` on a non-empty digit string whose value fits in an `int`. -/
theorem Atoi_of_digits (d : List Char) (hne : d ≠ []) (hdig : ∀ c ∈ d, isDigit c = true)
    (hfit : decimalValue d < 2 ^ (intSize - 1)) : Atoi ⟨d⟩ = some (decimalValue d : Int) := by
  cases d with
  | nil => exact absurd rfl hne
  | cons c cs =>
    obtain ⟨h1, h2⟩ := isDigit_ne_sign c (hdig c (List.mem_cons_self _ _))
    have hp := parseDigits_of_digits (c :: cs) hdig 0
    have hlt : ¬ (2 ^ (intSize - 1) ≤ decimalValue (c :: cs)) := by omega
    unfold decimalValue at hlt ⊢
    simp only [Atoi, h1, h2, Bool.or_self, Bool.false_eq_true, if_false, List.isEmpty_cons, hp,
      Bool.not_false, Bool.true_and, decide_eq_true_eq, hlt, Bool.false_and]

/-- What `Atoi` accepts is a non-empty digit string, possibly after one sign character. -/
theorem Atoi_some_shape (s : List Char) (v : Int) (h : Atoi ⟨s⟩ = some v) :
    ∃ body : List Char, body ≠ [] ∧ (∀ c ∈ body, isDigit c = true) ∧
      (s = body ∨ s = '-' :: body ∨ s = '+' :: body) := by
  cases s with
  | nil => simp [Atoi] at h
  | cons x xs =>
    simp only [Atoi] at h
    by_cases hs : (x == '-' || x == '+') = true
    · simp only [hs, if_true] at h
      cases xs with
      | nil => simp at h
      | cons y ys =>
        simp only [List.isEmpty_cons, Bool.false_eq_true, if_false] at h
        cases hp : parseDigits (y :: ys) 0 with
        | none => simp [hp] at h
        | some un =>
          refine ⟨y :: ys, by simp, parseDigits_some_digits _ _ _ hp, ?_⟩
          simp only [Bool.or_eq_true, beq_iff_eq] at hs
          rcases hs with rfl | rfl
          · exact Or.inr (Or.inl rfl)
          · exact Or.inr (Or.inr rfl)
    · simp only [hs, Bool.false_eq_true, if_false, List.isEmpty_cons] at h
      cases hp : parseDigits (x :: xs) 0 with
      | none => simp [hp] at h
      | some un =>
        exact ⟨x :: xs, by simp, parseDigits_some_digits _ _ _ hp, Or.inl rfl⟩

theorem dropLiteral_eq_some (lit s r : List Char) :
    dropLiteral lit s = some r ↔ s = lit ++ r := by
  induction lit generalizing s with
  | nil => simp [dropLiteral, eq_comm]
  | cons l ls ih =>
    cases s with
    | nil => simp [dropLiteral]
    | cons c cs =>
      by_cases h : l = c
      · subst h
        simp [dropLiteral, ih]
      · have h2 : ¬ c = l := fun e => h e.symm
        simp [dropLiteral, h, h2]

theorem takeWhile_digits_append (d s : List Char) (hdig : ∀ c ∈ d, isDigit c = true)
    (hs : ∀ c t, s = c :: t → isDigit c = false) : (d ++ s).takeWhile isDigit = d := by
  induction d with
  | nil =>
    cases s with
    | nil => rfl
    | cons c t => simp [List.takeWhile, hs c t rfl]
  | cons x xs ih =>
    have hx : isDigit x = true := hdig x (List.mem_cons_self _ _)
    simp only [List.cons_append, List.takeWhile_cons, hx, if_true]
    rw [ih (fun c hc => hdig c (List.mem_cons_of_mem _ hc))]

/-- A match anchored at the start exposes the literal followed by a digit. -/
theorem matchHere_some (w : List Char) (m : List Char × List Char) (h : matchHere w = some m) :
    ∃ c b, w = kinopoiskUrlLiteral ++ c :: b ∧ isDigit c = true := by
  unfold matchHere at h
  cases hd : dropLiteral kinopoiskUrlLiteral w with
  | none => simp [hd] at h
  | some rest =>
    rw [dropLiteral_eq_some] at hd
    cases rest with
    | nil =>
      have hd2 : dropLiteral kinopoiskUrlLiteral w = some [] :=
        (dropLiteral_eq_some _ _ _).mpr hd
      simp [hd2] at h
    | cons c b =>
      by_cases hc : isDigit c = true
      · exact ⟨c, b, hd, hc⟩
      · have hd2 : dropLiteral kinopoiskUrlLiteral w = some (c :: b) :=
          (dropLiteral_eq_some _ _ _).mpr hd
        simp [hd2, List.takeWhile, hc] at h

theorem matchHere_append (d s : List Char) (hne : d ≠ []) (hdig : ∀ c ∈ d, isDigit c = true)
    (hs : ∀ c t, s = c :: t → isDigit c = false) :
    matchHere (kinopoiskUrlLiteral ++ d ++ s) = some (kinopoiskUrlLiteral ++ d, d) := by
  have hd : dropLiteral kinopoiskUrlLiteral (kinopoiskUrlLiteral ++ d ++ s) = some (d ++ s) := by
    rw [dropLiteral_eq_some, List.append_assoc]
  unfold matchHere
  rw [hd]
  simp only [takeWhile_digits_append d s hdig hs]
  cases d with
  | nil => exact absurd rfl hne
  | cons x xs => simp

/-- A match found anywhere exposes the literal followed by a digit somewhere in the text. -/
theorem FindStringSubmatch_some (w : List Char) (m : List Char × List Char)
    (h : FindStringSubmatch w = some m) :
    ∃ a c b, w = a ++ kinopoiskUrlLiteral ++ c :: b ∧ isDigit c = true := by
  induction w with
  | nil =>
    obtain ⟨c, b, hw, hc⟩ := matchHere_some _ _ h
    simp at hw
  | cons x xs ih =>
    simp only [FindStringSubmatch] at h
    cases hm : matchHere (x :: xs) with
    | some m2 =>
      obtain ⟨c, b, hw, hc⟩ := matchHere_some _ _ hm
      exact ⟨[], c, b, by simpa using hw, hc⟩
    | none =>
      rw [hm] at h
      obtain ⟨a, c, b, hw, hc⟩ := ih h
      exact ⟨x :: a, c, b, by simp [hw], hc⟩

theorem literal_no_digit : ∀ c ∈ kinopoiskUrlLiteral, isDigit c = false := by decide

/-- No match can start inside a prefix `p` that itself holds no literal-plus-digit, when `p` is
followed by the literal: a match running over the end of `p` would need a digit inside the
literal. -/
theorem matchHere_none_in_prefix (p r : List Char) (hp : p ≠ [])
    (hfree : ∀ a b c, p = a ++ kinopoiskUrlLiteral ++ c :: b → isDigit c = false) :
    matchHere (p ++ (kinopoiskUrlLiteral ++ r)) = none := by
  cases hm : matchHere (p ++ (kinopoiskUrlLiteral ++ r)) with
  | none => rfl
  | some m =>
    exfalso
    obtain ⟨c, b, hw, hc⟩ := matchHere_some _ _ hm
    have hw2 : p ++ (kinopoiskUrlLiteral ++ r) = (kinopoiskUrlLiteral ++ [c]) ++ b := by
      simp [hw]
    rcases List.append_eq_append_iff.mp hw2 with ⟨a2, h1, h2⟩ | ⟨c2, h1, h2⟩
    · -- `kinopoiskUrlLiteral ++ [c] = p ++ a2`, and `a2` is a prefix of the literal
      cases a2 with
      | nil =>
        have : p = [] ++ kinopoiskUrlLiteral ++ c :: [] := by simpa using h1.symm
        rw [hfree _ _ _ this] at hc
        exact Bool.noConfusion hc
      | cons y ys =>
        have hlen : (kinopoiskUrlLiteral ++ [c]).length = (p ++ y :: ys).length := by rw [h1]
        have hplen : 0 < p.length := List.length_pos.mpr hp
        simp only [List.length_append, List.length_cons, List.length_nil] at hlen
        have hpre1 : (y :: ys) <+: kinopoiskUrlLiteral ++ r := ⟨b, h2.symm⟩
        have hpre2 : kinopoiskUrlLiteral <+: kinopoiskUrlLiteral ++ r := ⟨r, rfl⟩
        have hpre : (y :: ys) <+: kinopoiskUrlLiteral :=
          List.prefix_of_prefix_length_le hpre1 hpre2 (by simp only [List.length_cons]; omega)
        have hmem : c ∈ y :: ys := by
          have hl : (p ++ y :: ys).getLast? = some c := by rw [← h1]; simp
          rw [List.getLast?_append_cons] at hl
          exact List.mem_of_getLast?_eq_some hl
        rw [literal_no_digit c (hpre.subset hmem)] at hc
        exact Bool.noConfusion hc
    · have : p = [] ++ kinopoiskUrlLiteral ++ c :: c2 := by simpa using h1
      rw [hfree _ _ _ this] at hc
      exact Bool.noConfusion hc

theorem FindStringSubmatch_of_matchHere (w : List Char) (m : List Char × List Char)
    (h : matchHere w = some m) : FindStringSubmatch w = some m := by
  cases w with
  | nil => exact h
  | cons x xs => simp [FindStringSubmatch, h]

theorem FindStringSubmatch_append (p d s : List Char) (hne : d ≠ [])
    (hdig : ∀ c ∈ d, isDigit c = true) (hs : ∀ c t, s = c :: t → isDigit c = false)
    (hfree : ∀ a b c, p = a ++ kinopoiskUrlLiteral ++ c :: b → isDigit c = false) :
    FindStringSubmatch (p ++ kinopoiskUrlLiteral ++ d ++ s) =
      some (kinopoiskUrlLiteral ++ d, d) := by
  induction p with
  | nil =>
    apply FindStringSubmatch_of_matchHere
    simpa using matchHere_append d s hne hdig hs
  | cons x xs ih =>
    have hnone : matchHere (x :: xs ++ (kinopoiskUrlLiteral ++ (d ++ s))) = none :=
      matchHere_none_in_prefix (x :: xs) (d ++ s) (by simp) hfree
    have hfree2 : ∀ a b c, xs = a ++ kinopoiskUrlLiteral ++ c :: b → isDigit c = false := by
      intro a b c hxs
      exact hfree (x :: a) b c (by simp [hxs])
    have ih2 := ih hfree2
    simp only [List.append_assoc] at ih2 ⊢
    simp only [List.cons_append] at hnone ⊢
    simp only [FindStringSubmatch, hnone, ih2]

theorem Atoi_none_of_tail (w : List Char) (c : Char) (hc : c ∈ w.tail)
    (hnd : isDigit c = false) : Atoi ⟨w⟩ = none := by
  cases h : Atoi ⟨w⟩ with
  | none => rfl
  | some v =>
    exfalso
    obtain ⟨body, _, hall, hw⟩ := Atoi_some_shape w v h
    have hcb : c ∈ body := by
      rcases hw with rfl | rfl | rfl
      · exact List.mem_of_mem_tail hc
      · simpa using hc
      · simpa using hc
    rw [hall c hcb] at hnd
    exact Bool.noConfusion hnd

/-- Text that holds the literal `.kinopoisk.ru/film/` is never an integer for `Atoi`. -/
theorem Atoi_url_none (p r : List Char) : Atoi ⟨p ++ kinopoiskUrlLiteral ++ r⟩ = none := by
  cases p with
  | nil =>
    apply Atoi_none_of_tail _ 'k'
    · simp [kinopoiskUrlLiteral]
    · decide
  | cons x xs =>
    apply Atoi_none_of_tail _ '.'
    · simp [kinopoiskUrlLiteral]
    · decide

/-- C2: for every non-empty string `d` of decimal digits whose value fits in an `int`,
`parseKinopoiskUrl d` is that value; and `parseKinopoiskUrl (p ++ ".kinopoisk.ru/film/" ++ d ++ s)`
is that value too whenever `s` does not start with a digit and `p` holds no earlier
`.kinopoisk.ru/film/<digit>` (such an input is never itself an integer, so that condition of the
claim needs no hypothesis). In particular `123` gives 123 and
`https://x.kinopoisk.ru/film/456` gives 456. -/
theorem parseKinopoiskUrl_resolves (d : List Char) (hne : d ≠ [])
    (hdig : ∀ c ∈ d, isDigit c = true) (hfit : decimalValue d < 2 ^ (intSize - 1)) :
    parseKinopoiskUrl ⟨d⟩ = (decimalValue d : Int) ∧
    (∀ p s : List Char,
      (∀ a b c, p = a ++ kinopoiskUrlLiteral ++ c :: b → isDigit c = false) →
      (∀ c t, s = c :: t → isDigit c = false) →
      parseKinopoiskUrl ⟨p ++ kinopoiskUrlLiteral ++ d ++ s⟩ = (decimalValue d : Int)) ∧
    parseKinopoiskUrl "123" = 123 ∧
    parseKinopoiskUrl "https://x.kinopoisk.ru/film/456" = 456 := by
  have hA := Atoi_of_digits d hne hdig hfit
  refine ⟨?_, ?_, by decide, by decide⟩
  · simp only [parseKinopoiskUrl, hA]
  · intro p s hfree hs
    have h1 : Atoi ⟨p ++ kinopoiskUrlLiteral ++ d ++ s⟩ = none := by
      have := Atoi_url_none p (d ++ s)
      simpa only [List.append_assoc] using this
    have h2 := FindStringSubmatch_append p d s hne hdig hs hfree
    simp only [parseKinopoiskUrl, h1, h2, hA]

/-- C2 (witness): the theorem at the digits `456`, with the prefix `https://x` and an empty
suffix. -/
theorem parseKinopoiskUrl_resolves_witness :
    parseKinopoiskUrl ⟨"456".data⟩ = (decimalValue "456".data : Int) ∧
    parseKinopoiskUrl ⟨"https://x".data ++ kinopoiskUrlLiteral ++ "456".data ++ []⟩ = 456 := by
  have h := parseKinopoiskUrl_resolves "456".data (by decide) (by decide) (by decide)
  refine ⟨h.1, ?_⟩
  have h2 := h.2.1 "https://x".data [] ?_ ?_
  · rw [h2]; decide
  · intro a b c hp
    have hlen := congrArg List.length hp
    simp [kinopoiskUrlLiteral] at hlen
    omega
  · intro c t ht
    cases ht

theorem isRawNumeric_iff (s : List Char) :
    isRawNumeric s = true ↔ s ≠ [] ∧ ∀ c ∈ s, isDigit c = true := by
  cases s with
  | nil => simp [isRawNumeric]
  | cons x xs => simp [isRawNumeric]

theorem Atoi_some_signed (s : List Char) (v : Int) (h : Atoi ⟨s⟩ = some v) :
    isSignedNumeric s = true := by
  obtain ⟨body, hne, hall, hs⟩ := Atoi_some_shape s v h
  have hb : isRawNumeric body = true := (isRawNumeric_iff body).mpr ⟨hne, hall⟩
  rcases hs with rfl | rfl | rfl
  · simp [isSignedNumeric, hb]
  · simp [isSignedNumeric, hb]
  · simp [isSignedNumeric, hb]

/-- C10 (as amended): every input that is neither an optionally signed decimal numeral (one or
more digits, possibly after one `+` or `-`) nor contains `/film/` followed by a digit makes
`parseKinopoiskUrl` return the failure value `-1`, which the workflows turn into the fatal
`can not get kinopoisk film id`; e.g. `not a match` gives `-1`. -/
theorem parseKinopoiskUrl_fails (s : String) (hnum : isSignedNumeric s.data = false)
    (hurl : ¬ ∃ a c b, s.data = a ++ filmLiteral ++ c :: b ∧ isDigit c = true) :
    parseKinopoiskUrl s = -1 ∧
    resolveFilmId s = .error "can not get kinopoisk film id" := by
  have h1 : Atoi s = none := by
    cases h : Atoi s with
    | none => rfl
    | some v =>
      have := Atoi_some_signed s.data v h
      rw [this] at hnum
      exact Bool.noConfusion hnum
  have h2 : FindStringSubmatch s.data = none := by
    cases h : FindStringSubmatch s.data with
    | none => rfl
    | some m =>
      exfalso
      obtain ⟨a, c, b, hw, hc⟩ := FindStringSubmatch_some _ _ h
      apply hurl
      refine ⟨a ++ ".kinopoisk.ru".data, c, b, ?_, hc⟩
      rw [hw]
      simp [kinopoiskUrlLiteral, filmLiteral]
  have h3 : parseKinopoiskUrl s = -1 := by simp only [parseKinopoiskUrl, h1, h2]
  refine ⟨h3, ?_⟩
  simp only [resolveFilmId, h3]
  rfl

/-- C10 (witness): the input `not a match`. -/
theorem parseKinopoiskUrl_fails_witness : parseKinopoiskUrl "not a match" = -1 := by
  refine (parseKinopoiskUrl_fails "not a match" (by decide) ?_).1
  rintro ⟨a, c, b, hw, _⟩
  have hmem : '/' ∈ "not a match".data := by
    rw [hw]
    simp [filmLiteral]
  revert hmem
  decide

/-- C10 (counterexample): `-5` and `+7` are neither non-empty digit strings nor contain `/film/`,
yet `parseKinopoiskUrl` returns `-5` and `7` for them, not `-1`. -/
theorem parseKinopoiskUrl_signed_not_rejected :
    isRawNumeric "-5".data = false ∧
    (¬ ∃ a c b, "-5".data = a ++ filmLiteral ++ c :: b ∧ isDigit c = true) ∧
    parseKinopoiskUrl "-5" = -5 ∧
    isRawNumeric "+7".data = false ∧
    (¬ ∃ a c b, "+7".data = a ++ filmLiteral ++ c :: b ∧ isDigit c = true) ∧
    parseKinopoiskUrl "+7" = 7 := by
  refine ⟨by decide, ?_, by decide, by decide, ?_, by decide⟩
  · rintro ⟨a, c, b, hw, _⟩
    have hlen := congrArg List.length hw
    simp [filmLiteral] at hlen
    omega
  · rintro ⟨a, c, b, hw, _⟩
    have hlen := congrArg List.length hw
    simp [filmLiteral] at hlen
    omega

/-! ## Theorems: the metadata mapper -/

theorem Filter_eq_filter {T : Type} (slice : List T) (selector : T → Bool) :
    Filter slice selector = slice.filter selector := by
  have aux : ∀ (l acc : List T),
      l.foldl (fun result item => if selector item then result ++ [item] else result) acc =
        acc ++ l.filter selector := by
    intro l
    induction l with
    | nil => intro acc; simp
    | cons x xs ih =>
      intro acc
      by_cases hx : selector x = true
      · simp [List.foldl_cons, hx, ih]
      · simp [List.foldl_cons, hx, ih]
  simpa [Filter] using aux slice []

theorem Select_eq_map {T V : Type} (slice : List T) (f : T → V) :
    Select slice f = slice.map f := by
  have aux : ∀ (l : List T) (acc : List V),
      l.foldl (fun result item => result ++ [f item]) acc = acc ++ l.map f := by
    intro l
    induction l with
    | nil => intro acc; simp
    | cons x xs ih => intro acc; simp [List.foldl_cons, ih]
  simpa [Select] using aux slice []

theorem TakeOne_none {T : Type} [Inhabited T] (slice : List T) (selector : T → Bool)
    (h : ∀ x ∈ slice, selector x = false) : TakeOne slice selector = (default, false) := by
  induction slice with
  | nil => rfl
  | cons x xs ih =>
    have hx : selector x = false := h x (List.mem_cons_self _ _)
    simp only [TakeOne, hx, Bool.false_eq_true, if_false]
    exact ih (fun y hy => h y (List.mem_cons_of_mem _ hy))

theorem TakeOne_first {T : Type} [Inhabited T] (pre post : List T) (x : T)
    (selector : T → Bool) (hpre : ∀ y ∈ pre, selector y = false) (hx : selector x = true) :
    TakeOne (pre ++ x :: post) selector = (x, true) := by
  induction pre with
  | nil => simp [TakeOne, hx]
  | cons y ys ih =>
    have hy : selector y = false := hpre y (List.mem_cons_self _ _)
    simp only [List.cons_append, TakeOne, hy, Bool.false_eq_true, if_false]
    exact ih (fun z hz => hpre z (List.mem_cons_of_mem _ hz))

/-- C4: for every Movie whose person list holds no person with profession `director`,
`KinopoiskDtoToNfo` fails (the dereference of the missing director's name panics); it returns no
`MovieNfo` at all for such a Movie, hence none with an empty director. -/
theorem KinopoiskDtoToNfo_missing_director {F T : Type} (sprintf_f : F → String)
    (format : T → String) (dto : kinopoisk.Movie F T)
    (h : ∀ p ∈ dto.Persons, p.EnProfession ≠ "director") :
    KinopoiskDtoToNfo sprintf_f format dto = .error Panic.nilPointerDereference ∧
    ∀ nfo, KinopoiskDtoToNfo sprintf_f format dto ≠ .ok nfo := by
  have ht : TakeOne dto.Persons (fun item => item.EnProfession == "director") =
      (default, false) := by
    apply TakeOne_none
    intro p hp
    simpa using h p hp
  have hr : KinopoiskDtoToNfo sprintf_f format dto = .error Panic.nilPointerDereference := by
    simp only [KinopoiskDtoToNfo, ht]
  refine ⟨hr, ?_⟩
  intro nfo hnfo
  rw [hr] at hnfo
  cases hnfo

/-- C4 (witness): a Movie whose only person is an actor. -/
theorem KinopoiskDtoToNfo_missing_director_witness :
    KinopoiskDtoToNfo (fun _ => "") (fun _ => "")
      (sampleMovie [samplePerson "actor" (some "A")] []) =
        .error Panic.nilPointerDereference :=
  (KinopoiskDtoToNfo_missing_director (fun _ => "") (fun _ => "")
    (sampleMovie [samplePerson "actor" (some "A")] []) (by decide)).1

/-- C5 (failing input): a Movie whose first `director` has no display name. The mapper
dereferences the nil name and panics, although the person list does contain a director. -/
theorem KinopoiskDtoToNfo_nameless_director (sprintf_f format : Unit → String) :
    KinopoiskDtoToNfo sprintf_f format
      (sampleMovie [samplePerson "actor" (some "A"), samplePerson "director" none,
        samplePerson "director" (some "D")] []) =
        .error Panic.nilPointerDereference := by
  rfl

/-- When the first `director` of the person list has a display name, the mapper succeeds
and the director of the result is that name, whatever directors follow. -/
theorem KinopoiskDtoToNfo_named_director {F T : Type} (sprintf_f : F → String)
    (format : T → String) (dto : kinopoisk.Movie F T) (pre post : List kinopoisk.Person)
    (p : kinopoisk.Person) (name : String) (hpersons : dto.Persons = pre ++ p :: post)
    (hpre : ∀ q ∈ pre, q.EnProfession ≠ "director") (hp : p.EnProfession = "director")
    (hname : p.Name = some name) :
    ∃ nfo, KinopoiskDtoToNfo sprintf_f format dto = .ok nfo ∧ nfo.Director = name := by
  have ht : TakeOne dto.Persons (fun item => item.EnProfession == "director") = (p, true) := by
    rw [hpersons]
    apply TakeOne_first
    · intro q hq
      simpa using hpre q hq
    · simp [hp]
  simp only [KinopoiskDtoToNfo, ht, hname]
  exact ⟨_, rfl, rfl⟩

/-- C6: for every Movie on which `KinopoiskDtoToNfo` succeeds, the actor list of the result is
the list of persons whose profession is `actor`, in the order of the person list, each mapped to
its name (or the empty string), its description as role (or the empty string) and its photo URL as
thumbnail; persons of any other profession contribute nothing. -/
theorem KinopoiskDtoToNfo_actors {F T : Type} (sprintf_f : F → String) (format : T → String)
    (dto : kinopoisk.Movie F T) (nfo : MovieNfo)
    (h : KinopoiskDtoToNfo sprintf_f format dto = .ok nfo) :
    nfo.Actor =
      (dto.Persons.filter (fun p => p.EnProfession == "actor")).map (fun p =>
        ({ Text := "", Name := p.Name.getD "", Role := p.Description.getD "", Order := "",
           Thumb := p.Photo } : Actor)) := by
  have hflat : ∀ o : Option String, flat o = o.getD "" := by
    intro o; cases o <;> rfl
  simp only [KinopoiskDtoToNfo] at h
  split at h
  · cases h
  · injection h with h
    subst h
    simp only [Filter_eq_filter, Select_eq_map, hflat]

/-- C6 (witness): persons `[actor A, director D]` with genres `Drama`, `Noir` give a
one-element actor list holding `A` (and director `D`, genre string `Drama, Noir`). -/
theorem KinopoiskDtoToNfo_actors_witness :
    ∃ nfo, KinopoiskDtoToNfo (fun _ => "") (fun _ => "")
        (sampleMovie [samplePerson "actor" (some "A"), samplePerson "director" (some "D")]
          ["Drama", "Noir"]) = .ok nfo ∧
      nfo.Actor = [{ Text := "", Name := "A", Role := "", Order := "", Thumb := "" }] ∧
      nfo.Director = "D" ∧ nfo.Genre = "Drama, Noir" := by
  cases h : KinopoiskDtoToNfo (fun _ => "") (fun _ => "")
      (sampleMovie [samplePerson "actor" (some "A"), samplePerson "director" (some "D")]
        ["Drama", "Noir"]) with
  | error e => cases h
  | ok nfo =>
    have hactors := KinopoiskDtoToNfo_actors (fun _ => "") (fun _ => "") _ nfo h
    injection h with h
    subst h
    exact ⟨_, rfl, hactors.trans (by decide), rfl, by decide⟩

/-! ## Theorems: the form encoder -/

namespace qbitorrent

theorem FormMap.get_append (a b : FormMap) (k : String) :
    FormMap.get (a ++ b) k = (match FormMap.get a k with
      | some x => some x
      | none => FormMap.get b k) := by
  induction a with
  | nil => rfl
  | cons e rest ih =>
    by_cases h : e.1 = k
    · simp [FormMap.get, h]
    · simp [FormMap.get, h, ih]

theorem FormMap.get_filter_self (m : FormMap) (k : String) :
    FormMap.get (m.filter (fun e => e.1 != k)) k = none := by
  induction m with
  | nil => rfl
  | cons e rest ih =>
    by_cases h : e.1 = k
    · simp [List.filter_cons, h, ih]
    · simp [List.filter_cons, h, FormMap.get, ih]

theorem FormMap.get_filter_other (m : FormMap) (k k2 : String) (hk : k2 ≠ k) :
    FormMap.get (m.filter (fun e => e.1 != k)) k2 = FormMap.get m k2 := by
  induction m with
  | nil => rfl
  | cons e rest ih =>
    by_cases h : e.1 = k
    · have h2 : ¬ e.1 = k2 := fun e2 => hk (e2.symm.trans h)
      have h4 : ¬ k = k2 := fun e2 => hk e2.symm
      simp [List.filter_cons, h, FormMap.get, h4, ih]
    · by_cases h3 : e.1 = k2
      · simp [List.filter_cons, FormMap.get, h3, hk]
      · simp [List.filter_cons, h, FormMap.get, h3, ih]

theorem FormMap.get_set_self (m : FormMap) (k v : String) :
    FormMap.get (m.set k v) k = some v := by
  simp [FormMap.set, FormMap.get_append, FormMap.get_filter_self, FormMap.get]

theorem FormMap.get_set_other (m : FormMap) (k v k2 : String) (hk : k2 ≠ k) :
    FormMap.get (m.set k v) k2 = FormMap.get m k2 := by
  have hk2 : ¬ k = k2 := fun e => hk e.symm
  rw [FormMap.set, FormMap.get_append, FormMap.get_filter_other m k k2 hk]
  cases FormMap.get m k2 with
  | some x => rfl
  | none => simp [FormMap.get, hk2]

/-- The result of storing, or not storing, the entry of a field. -/
theorem encodeField_eq (marshal : Value → Except String String) (r : FormMap)
    (f : StructField × Value) (hw : isWireField f = true) :
    encodeField marshal r f.1 f.2 =
      (match fieldEntry marshal f with
        | .error e => .error e
        | .ok none => .ok r
        | .ok (some str) => .ok (r.set (wireName f) str)) := by
  obtain ⟨fld, v⟩ := f
  simp only [isWireField, Bool.and_eq_true, beq_iff_eq, bne_iff_ne, ne_eq] at hw
  obtain ⟨h1, h2⟩ := hw
  simp only [encodeField, fieldEntry, omitEmpty, wireName, h1, h2, bne_self_eq_false,
    Bool.false_eq_true, if_false, beq_iff_eq]
  cases v <;> simp only [] <;> split <;> try rfl
  all_goals (split <;> rfl)

theorem encodeField_skip (marshal : Value → Except String String) (r : FormMap)
    (f : StructField × Value) (hw : isWireField f = false) :
    encodeField marshal r f.1 f.2 = .ok r := by
  obtain ⟨fld, v⟩ := f
  simp only [isWireField, Bool.and_eq_false_iff, beq_eq_false_iff_ne, ne_eq,
    bne_eq_false_iff_eq] at hw
  rcases hw with h | h
  · simp [encodeField, h]
  · simp [encodeField, h]

/-- The invariant of the field loop: keys that are no wire name keep their value, and each
wire field leaves its own entry (or the earlier value when it is skipped), provided the wire
names are pairwise distinct. -/
theorem encodeFields_get (marshal : Value → Except String String) :
    ∀ (fields : List (StructField × Value)) (r m : FormMap),
      encodeFields marshal r fields = .ok m → (wireNames fields).Nodup →
      (∀ k, k ∉ wireNames fields → m.get k = r.get k) ∧
      (∀ f ∈ fields, isWireField f = true → ∃ o, fieldEntry marshal f = .ok o ∧
        m.get (wireName f) = (match o with
          | some str => some str
          | none => r.get (wireName f))) := by
  intro fields
  induction fields with
  | nil =>
    intro r m h _
    simp only [encodeFields] at h
    injection h with h
    subst h
    exact ⟨fun _ _ => rfl, fun f hf => absurd hf (List.not_mem_nil f)⟩
  | cons f0 rest ih =>
    intro r m h hnd
    simp only [encodeFields] at h
    cases hw : isWireField f0 with
    | false =>
      rw [encodeField_skip marshal r f0 hw] at h
      have hnames : wireNames (f0 :: rest) = wireNames rest := by
        simp [wireNames, List.filter_cons, hw]
      rw [hnames] at hnd ⊢
      obtain ⟨hA, hB⟩ := ih r m h hnd
      refine ⟨hA, ?_⟩
      intro f hf hfw
      rcases List.mem_cons.mp hf with rfl | hf
      · rw [hw] at hfw; exact Bool.noConfusion hfw
      · exact hB f hf hfw
    | true =>
      have hnames : wireNames (f0 :: rest) = wireName f0 :: wireNames rest := by
        simp [wireNames, List.filter_cons, hw]
      rw [hnames] at hnd ⊢
      obtain ⟨hnot, hnd2⟩ := List.nodup_cons.mp hnd
      rw [encodeField_eq marshal r f0 hw] at h
      cases he : fieldEntry marshal f0 with
      | error e => simp [he] at h
      | ok o =>
        cases o with
        | none =>
          simp only [he] at h
          obtain ⟨hA, hB⟩ := ih r m h hnd2
          refine ⟨fun k hk => hA k (fun hk2 => hk (List.mem_cons_of_mem _ hk2)), ?_⟩
          intro f hf hfw
          rcases List.mem_cons.mp hf with rfl | hf
          · exact ⟨none, he, hA _ hnot⟩
          · exact hB f hf hfw
        | some str =>
          simp only [he] at h
          obtain ⟨hA, hB⟩ := ih _ m h hnd2
          refine ⟨?_, ?_⟩
          · intro k hk
            have hk1 : k ≠ wireName f0 := fun e => hk (e ▸ List.mem_cons_self _ _)
            rw [hA k (fun hk2 => hk (List.mem_cons_of_mem _ hk2)),
              FormMap.get_set_other _ _ _ _ hk1]
          · intro f hf hfw
            rcases List.mem_cons.mp hf with rfl | hf
            · refine ⟨some str, he, ?_⟩
              rw [hA _ hnot, FormMap.get_set_self]
            · obtain ⟨o, ho, hget⟩ := hB f hf hfw
              refine ⟨o, ho, ?_⟩
              rw [hget]
              have hne : wireName f ≠ wireName f0 := by
                intro e
                apply hnot
                rw [← e]
                exact List.mem_map_of_mem _ (List.mem_filter.mpr ⟨hf, hfw⟩)
              rw [FormMap.get_set_other _ _ _ _ hne]

/-- On a successful run over a struct with pairwise distinct wire names, the result holds
for each wire field exactly the entry that field contributes. -/
theorem StructToMap_get (marshal : Value → Except String String)
    (fields : List (StructField × Value)) (m : FormMap)
    (h : StructToMap marshal (.struct fields) = .ok m) (hnd : (wireNames fields).Nodup)
    (f : StructField × Value) (hf : f ∈ fields) (hw : isWireField f = true) :
    ∃ o, fieldEntry marshal f = .ok o ∧ m.get (wireName f) = o := by
  obtain ⟨o, ho, hget⟩ := (encodeFields_get marshal fields [] m h hnd).2 f hf hw
  refine ⟨o, ho, ?_⟩
  rw [hget]
  cases o <;> rfl

/-- The same through a pointer to the struct. -/
theorem StructToMap_pointer (marshal : Value → Except String String)
    (fields : List (StructField × Value)) :
    StructToMap marshal (.pointer (.struct fields)) = StructToMap marshal (.struct fields) :=
  rfl

theorem strValue_total (marshal : Value → Except String String)
    (htotal : ∀ v, ∃ str, marshal v = .ok str) (x : Value) :
    ∃ str, strValue marshal x = .ok str := by
  cases x <;> first | exact ⟨_, rfl⟩ | exact htotal _

theorem encodeField_total (marshal : Value → Except String String)
    (htotal : ∀ v, ∃ str, marshal v = .ok str) (r : FormMap) (f : StructField × Value) :
    ∃ r2, encodeField marshal r f.1 f.2 = .ok r2 := by
  cases hw : isWireField f with
  | false => exact ⟨r, encodeField_skip marshal r f hw⟩
  | true =>
    rw [encodeField_eq marshal r f hw]
    have hentry : ∃ o, fieldEntry marshal f = .ok o := by
      obtain ⟨fld, v⟩ := f
      simp only [fieldEntry]
      split
      · split <;> exact ⟨_, rfl⟩
      · split
        · exact ⟨_, rfl⟩
        · have key : ∀ y : Value, ∃ o : Option String,
              (match strValue marshal y with
                | .error e => Except.error ("failed to marshal field " ++ fld.Name ++ ": " ++ e)
                | .ok str => Except.ok (some str)) = Except.ok o := by
            intro y
            obtain ⟨str, hstr⟩ := strValue_total marshal htotal y
            rw [hstr]
            exact ⟨_, rfl⟩
          exact key _
    obtain ⟨o, ho⟩ := hentry
    rw [ho]
    cases o <;> exact ⟨_, rfl⟩

/-- The encoder returns a map for every struct whenever `json.Marshal` does not fail: the
field loop has no other source of errors. -/
theorem StructToMap_total (marshal : Value → Except String String)
    (htotal : ∀ v, ∃ str, marshal v = .ok str) (fields : List (StructField × Value)) :
    ∃ m, StructToMap marshal (.struct fields) = .ok m := by
  have aux : ∀ (l : List (StructField × Value)) (r : FormMap),
      ∃ m, encodeFields marshal r l = .ok m := by
    intro l
    induction l with
    | nil => intro r; exact ⟨r, rfl⟩
    | cons f rest ih =>
      intro r
      obtain ⟨r2, hr2⟩ := encodeField_total marshal htotal r f
      obtain ⟨m, hm⟩ := ih r2
      exact ⟨m, by simp only [encodeFields, hr2, hm]⟩
  exact aux fields []

theorem Contains_nil_omitempty : Contains [] "omitempty".data = false := by decide

/-- A tag that asks for omission is not empty, so the field carries a wire name. -/
theorem isWireField_of_omitEmpty (f : StructField × Value) (hexp : f.1.PkgPath = "")
    (ho : omitEmpty f = true) : isWireField f = true := by
  have hne : f.1.jsonTag ≠ "" := by
    intro e
    rw [omitEmpty, e] at ho
    exact Bool.noConfusion (Contains_nil_omitempty.symm.trans ho)
  simp [isWireField, hexp, hne]

theorem digitChar_isDigit (d : Nat) (h : d < 10) :
    isDigit (Nat.digitChar d) = true ∧ digitVal (Nat.digitChar d) = d := by
  interval_cases d <;> exact ⟨by decide, by decide⟩

theorem decimal_foldl_shift (l : List Char) (v : Nat) :
    l.foldl (fun n c => n * 10 + digitVal c) v =
      v * 10 ^ l.length + l.foldl (fun n c => n * 10 + digitVal c) 0 := by
  induction l generalizing v with
  | nil => simp
  | cons c cs ih =>
    simp only [List.foldl_cons, List.length_cons]
    rw [ih (v * 10 + digitVal c), ih (0 * 10 + digitVal c)]
    ring

theorem toDigitsCore_spec (fuel : Nat) : ∀ (n : Nat) (acc : List Char), n < fuel →
    (∀ c ∈ acc, isDigit c = true) →
    (∀ c ∈ Nat.toDigitsCore 10 fuel n acc, isDigit c = true) ∧
    Nat.toDigitsCore 10 fuel n acc ≠ [] ∧
    decimalValue (Nat.toDigitsCore 10 fuel n acc) =
      n * 10 ^ acc.length + decimalValue acc := by
  induction fuel with
  | zero => intro n acc h; omega
  | succ fuel ih =>
    intro n acc hn hacc
    have hd := digitChar_isDigit (n % 10) (Nat.mod_lt _ (by decide))
    have hacc2 : ∀ c ∈ Nat.digitChar (n % 10) :: acc, isDigit c = true := by
      intro c hc
      rcases List.mem_cons.mp hc with rfl | hc
      · exact hd.1
      · exact hacc c hc
    have hval : decimalValue (Nat.digitChar (n % 10) :: acc) =
        (n % 10) * 10 ^ acc.length + decimalValue acc := by
      unfold decimalValue
      rw [List.foldl_cons, decimal_foldl_shift, hd.2]
      simp
    by_cases hz : n / 10 = 0
    · simp only [Nat.toDigitsCore, hz, if_true]
      refine ⟨hacc2, by simp, ?_⟩
      rw [hval]
      have : n % 10 = n := by omega
      rw [this]
    · simp only [Nat.toDigitsCore, hz, if_false]
      have hlt : n / 10 < fuel := by omega
      obtain ⟨h1, h2, h3⟩ := ih (n / 10) _ hlt hacc2
      refine ⟨h1, h2, ?_⟩
      rw [h3, hval, List.length_cons, pow_succ]
      have hdm := Nat.div_add_mod n 10
      calc n / 10 * (10 ^ acc.length * 10) + (n % 10 * 10 ^ acc.length + decimalValue acc)
          = (10 * (n / 10) + n % 10) * 10 ^ acc.length + decimalValue acc := by ring
        _ = n * 10 ^ acc.length + decimalValue acc := by rw [hdm]

/-- The digits printed for a natural number are decimal digits only and read back as that
number. -/
theorem toDigits_spec (n : Nat) :
    (∀ c ∈ Nat.toDigits 10 n, isDigit c = true) ∧ Nat.toDigits 10 n ≠ [] ∧
    decimalValue (Nat.toDigits 10 n) = n := by
  obtain ⟨h1, h2, h3⟩ := toDigitsCore_spec (n + 1) n [] (by omega) (by simp)
  refine ⟨h1, h2, ?_⟩
  unfold Nat.toDigits
  rw [h3]
  simp [decimalValue]

theorem sprintfInt_numeral (i : Int) : IsDecimalNumeral (sprintfInt i) i := by
  obtain ⟨h1, h2, h3⟩ := toDigits_spec i.natAbs
  refine ⟨Nat.toDigits 10 i.natAbs, h2, h1, h3, ?_⟩
  unfold sprintfInt
  by_cases hi : i < 0
  · simp [hi]
  · simp [hi]

theorem sprintfUint_numeral (u : Nat) : IsDecimalNumeral (sprintfUint u) (u : Int) := by
  obtain ⟨h1, h2, h3⟩ := toDigits_spec u
  refine ⟨Nat.toDigits 10 u, h2, h1, by simpa using h3, ?_⟩
  have : ¬ ((u : Int) < 0) := by omega
  simp [sprintfUint, this]

theorem fieldEntry_of_skipped (marshal : Value → Except String String)
    (f : StructField × Value) (hs : isSkipped f = true) : fieldEntry marshal f = .ok none := by
  obtain ⟨fld, v⟩ := f
  simp only [isSkipped, Bool.and_eq_true] at hs
  obtain ⟨ho, hz⟩ := hs
  cases v <;> simp_all [fieldEntry]

theorem fieldEntry_of_emitted (marshal : Value → Except String String)
    (f : StructField × Value) (o : Option String) (hs : isSkipped f = false)
    (h : fieldEntry marshal f = .ok o) : ∃ str, o = some str := by
  obtain ⟨fld, v⟩ := f
  cases ho : omitEmpty (fld, v) with
  | false =>
    simp only [fieldEntry, ho, Bool.false_and, Bool.false_eq_true, if_false] at h
    split at h
    · injection h with h; exact ⟨_, h.symm⟩
    · split at h
      · cases h
      · injection h with h; exact ⟨_, h.symm⟩
  | true =>
    simp only [isSkipped, ho, Bool.true_and] at hs
    simp only [fieldEntry, ho, Bool.true_and] at h
    split at h
    · simp at hs
    · rename_i hnil
      split at h
      · rename_i hz
        exfalso
        cases v <;> simp_all
      · split at h
        · cases h
        · injection h with h; exact ⟨_, h.symm⟩

/-- The entry of a field that holds `x` (directly or behind a non-nil pointer) and is not
omitted for emptiness: the string form of `x`. -/
theorem fieldEntry_of_holds (marshal : Value → Except String String)
    (f : StructField × Value) (x : Value) (str : String) (hx : Holds f.2 x)
    (hdirect : ∀ e, x ≠ .pointer e) (hnil : x ≠ .nilPointer)
    (hemit : ¬ (omitEmpty f = true ∧ isZero x = true))
    (hstr : strValue marshal x = .ok str) : fieldEntry marshal f = .ok (some str) := by
  obtain ⟨fld, v⟩ := f
  have hcond : (omitEmpty (fld, v) && isZero x) = false := by
    cases h1 : omitEmpty (fld, v) <;> cases h2 : isZero x <;> simp_all
  rcases hx with hv | hv
  · simp only at hv
    subst hv
    cases v <;> simp_all [fieldEntry]
  · simp only at hv
    subst hv
    simp [fieldEntry, hcond, hstr]

/-- C1: for every struct value whose fields have pairwise distinct wire names, the result of
`StructToMap` has no entry for an exported field tagged `omitempty` whose value, held directly or
behind a non-nil pointer, is the empty string, the integer 0 or `false`; every wire field that
the loop does not skip still has its entry; and the request `{Category: "", AutoTMM: true}` with
both fields omit-when-empty yields exactly `{"autoTMM": "true"}`. -/
theorem StructToMap_omits_zero (marshal : Value → Except String String)
    (fields : List (StructField × Value)) (m : FormMap)
    (h : StructToMap marshal (.struct fields) = .ok m) (hnd : (wireNames fields).Nodup) :
    (∀ f ∈ fields, f.1.PkgPath = "" → omitEmpty f = true →
      (Holds f.2 (.string "") ∨ Holds f.2 (.int 0) ∨ Holds f.2 (.uint 0) ∨
        Holds f.2 (.bool false)) →
      m.get (wireName f) = none) ∧
    (∀ f ∈ fields, isWireField f = true → isSkipped f = false →
      ∃ str, m.get (wireName f) = some str) ∧
    StructToMap marshal exampleRequest = .ok [("autoTMM", "true")] := by
  refine ⟨?_, ?_, rfl⟩
  · intro f hf hexp ho hz
    have hw := isWireField_of_omitEmpty f hexp ho
    obtain ⟨o, ho2, hget⟩ := StructToMap_get marshal fields m h hnd f hf hw
    have hskip : isSkipped f = true := by
      obtain ⟨fld, v⟩ := f
      simp only [isSkipped, ho, Bool.true_and]
      rcases hz with hv | hv | hv | hv <;> rcases hv with hv | hv <;> simp only at hv <;>
        subst hv <;> simp [isZero]
    rw [fieldEntry_of_skipped marshal f hskip] at ho2
    injection ho2 with ho2
    rw [hget, ← ho2]
  · intro f hf hw hs
    obtain ⟨o, ho2, hget⟩ := StructToMap_get marshal fields m h hnd f hf hw
    obtain ⟨str, rfl⟩ := fieldEntry_of_emitted marshal f o hs ho2
    exact ⟨str, hget⟩

/-- C1 (witness): the theorem at the example request; `category` has no entry, `autoTMM`
has one. -/
theorem StructToMap_omits_zero_witness :
    FormMap.get [("autoTMM", "true")] "category" = none ∧
    (∃ str, FormMap.get [("autoTMM", "true")] "autoTMM" = some str) := by
  have h := StructToMap_omits_zero marshalEmptyContainer
    [exportedField "Category" "category,omitempty" (.pointer (.string "")),
     exportedField "AutoTMM" "autoTMM,omitempty" (.pointer (.bool true))]
    [("autoTMM", "true")] rfl (by decide)
  constructor
  · exact h.1 (exportedField "Category" "category,omitempty" (.pointer (.string "")))
      (by simp) rfl (by decide) (Or.inl (Or.inr rfl))
  · exact h.2.1 (exportedField "AutoTMM" "autoTMM,omitempty" (.pointer (.bool true)))
      (by simp) (by decide) (by decide)

/-- C7: for every struct value with pairwise distinct wire names and every exported,
wire-named field whose value is a nil pointer: if the field is tagged `omitempty` the result of
`StructToMap` has no entry for its wire name, otherwise it maps the wire name to the empty
string. -/
theorem StructToMap_nil_pointer (marshal : Value → Except String String)
    (fields : List (StructField × Value)) (m : FormMap)
    (h : StructToMap marshal (.struct fields) = .ok m) (hnd : (wireNames fields).Nodup)
    (f : StructField × Value) (hf : f ∈ fields) (hw : isWireField f = true)
    (hnil : f.2 = .nilPointer) :
    (omitEmpty f = true → m.get (wireName f) = none) ∧
    (omitEmpty f = false → m.get (wireName f) = some "") := by
  obtain ⟨o, ho, hget⟩ := StructToMap_get marshal fields m h hnd f hf hw
  obtain ⟨fld, v⟩ := f
  simp only at hnil
  subst hnil
  constructor
  · intro hoe
    simp only [fieldEntry, hoe, if_true] at ho
    injection ho with ho
    rw [hget, ← ho]
  · intro hoe
    simp only [fieldEntry, hoe, Bool.false_eq_true, if_false] at ho
    injection ho with ho
    rw [hget, ← ho]

/-- C7 (witness): a struct with a nil `category` tagged `omitempty` and a nil `urls` without it
yields exactly `{"urls": ""}`. -/
theorem StructToMap_nil_pointer_witness :
    FormMap.get [("urls", "")] "category" = none ∧ FormMap.get [("urls", "")] "urls" = some "" := by
  have hc := StructToMap_nil_pointer marshalEmptyContainer
    [exportedField "Category" "category,omitempty" .nilPointer,
     exportedField "Urls" "urls" .nilPointer]
    [("urls", "")] rfl (by decide)
    (exportedField "Category" "category,omitempty" .nilPointer) (by simp) (by decide) rfl
  have hu := StructToMap_nil_pointer marshalEmptyContainer
    [exportedField "Category" "category,omitempty" .nilPointer,
     exportedField "Urls" "urls" .nilPointer]
    [("urls", "")] rfl (by decide)
    (exportedField "Urls" "urls" .nilPointer) (by simp) (by decide) rfl
  exact ⟨hc.1 (by decide), hu.2 (by decide)⟩

/-- C8: for every struct value with pairwise distinct wire names, each wire field that holds
`x` directly or behind a non-nil pointer and is not omitted for emptiness is mapped as follows: a
string to the string itself, a signed or unsigned integer to its base-10 numeral (an optional
minus sign and decimal digits only, reading back as the integer), a boolean to the literal `true`
or `false`. -/
theorem StructToMap_coerces (marshal : Value → Except String String)
    (fields : List (StructField × Value)) (m : FormMap)
    (h : StructToMap marshal (.struct fields) = .ok m) (hnd : (wireNames fields).Nodup)
    (f : StructField × Value) (hf : f ∈ fields) (hw : isWireField f = true) (x : Value)
    (hx : Holds f.2 x) (hemit : ¬ (omitEmpty f = true ∧ isZero x = true)) :
    (∀ s, x = .string s → m.get (wireName f) = some s) ∧
    (∀ i, x = .int i →
      m.get (wireName f) = some (sprintfInt i) ∧ IsDecimalNumeral (sprintfInt i) i) ∧
    (∀ u, x = .uint u →
      m.get (wireName f) = some (sprintfUint u) ∧ IsDecimalNumeral (sprintfUint u) (u : Int)) ∧
    (∀ b, x = .bool b → m.get (wireName f) = some (if b then "true" else "false")) := by
  obtain ⟨o, ho, hget⟩ := StructToMap_get marshal fields m h hnd f hf hw
  have key : ∀ str, (∀ e, x ≠ .pointer e) → x ≠ .nilPointer → strValue marshal x = .ok str →
      m.get (wireName f) = some str := by
    intro str h1 h2 h3
    rw [fieldEntry_of_holds marshal f x str hx h1 h2 hemit h3] at ho
    injection ho with ho
    rw [hget, ← ho]
  refine ⟨?_, ?_, ?_, ?_⟩
  · intro s hs
    subst hs
    exact key s (by intro e; simp) (by simp) rfl
  · intro i hi
    subst hi
    exact ⟨key _ (by intro e; simp) (by simp) rfl, sprintfInt_numeral i⟩
  · intro u hu
    subst hu
    exact ⟨key _ (by intro e; simp) (by simp) rfl, sprintfUint_numeral u⟩
  · intro b hb
    subst hb
    exact key _ (by intro e; simp) (by simp) rfl

/-- C8 (witness): a struct holding a string behind a pointer, a negative integer, an unsigned
integer and a boolean yields `hash -> abc`, `n -> -120`, `limit -> 2048`, `flag -> false`. -/
theorem StructToMap_coerces_witness :
    FormMap.get [("hash", "abc"), ("n", "-120"), ("limit", "2048"), ("flag", "false")] "hash" =
      some "abc" ∧
    FormMap.get [("hash", "abc"), ("n", "-120"), ("limit", "2048"), ("flag", "false")] "n" =
      some "-120" ∧
    FormMap.get [("hash", "abc"), ("n", "-120"), ("limit", "2048"), ("flag", "false")] "limit" =
      some "2048" ∧
    FormMap.get [("hash", "abc"), ("n", "-120"), ("limit", "2048"), ("flag", "false")] "flag" =
      some "false" := by
  have hrun : StructToMap marshalEmptyContainer (.struct
      [exportedField "Hash" "hash" (.pointer (.string "abc")),
       exportedField "N" "n,omitempty" (.int (-120)),
       exportedField "Limit" "limit" (.uint 2048),
       exportedField "Flag" "flag" (.bool false)]) =
      .ok [("hash", "abc"), ("n", "-120"), ("limit", "2048"), ("flag", "false")] := rfl
  refine ⟨?_, ?_, ?_, ?_⟩
  · exact (StructToMap_coerces marshalEmptyContainer _ _ hrun (by decide)
      (exportedField "Hash" "hash" (.pointer (.string "abc"))) (by simp) (by decide)
      (.string "abc") (Or.inr rfl) (by decide)).1 "abc" rfl
  · exact ((StructToMap_coerces marshalEmptyContainer _ _ hrun (by decide)
      (exportedField "N" "n,omitempty" (.int (-120))) (by simp) (by decide)
      (.int (-120)) (Or.inl rfl) (by decide)).2.1 (-120) rfl).1
  · exact ((StructToMap_coerces marshalEmptyContainer _ _ hrun (by decide)
      (exportedField "Limit" "limit" (.uint 2048)) (by simp) (by decide)
      (.uint 2048) (Or.inl rfl) (by decide)).2.2.1 2048 rfl).1
  · exact (StructToMap_coerces marshalEmptyContainer _ _ hrun (by decide)
      (exportedField "Flag" "flag" (.bool false)) (by simp) (by decide)
      (.bool false) (Or.inl rfl) (by decide)).2.2.2 false rfl

/-- C9 (as amended): for every struct value with pairwise distinct wire names, an exported
field tagged `omitempty` whose value, held directly or behind a non-nil pointer, is a nil slice or
a nil map is skipped, so the result has no entry for its wire name; an allocated slice or map is
not skipped, even without elements: the result maps the wire name to its JSON text. -/
theorem StructToMap_omits_nil_container (marshal : Value → Except String String)
    (fields : List (StructField × Value)) (m : FormMap)
    (h : StructToMap marshal (.struct fields) = .ok m) (hnd : (wireNames fields).Nodup)
    (f : StructField × Value) (hf : f ∈ fields) (hexp : f.1.PkgPath = "")
    (ho : omitEmpty f = true) :
    ((Holds f.2 .nilSlice ∨ Holds f.2 .nilMap) → m.get (wireName f) = none) ∧
    (∀ x, (∃ elems, x = .slice elems) ∨ (∃ entries, x = .map entries) → Holds f.2 x →
      ∃ str, marshal x = .ok str ∧ m.get (wireName f) = some str) := by
  have hw := isWireField_of_omitEmpty f hexp ho
  obtain ⟨o, ho2, hget⟩ := StructToMap_get marshal fields m h hnd f hf hw
  constructor
  · intro hz
    have hskip : isSkipped f = true := by
      obtain ⟨fld, v⟩ := f
      simp only [isSkipped, ho, Bool.true_and]
      rcases hz with hv | hv <;> rcases hv with hv | hv <;> simp only at hv <;>
        subst hv <;> simp [isZero]
    rw [fieldEntry_of_skipped marshal f hskip] at ho2
    injection ho2 with ho2
    rw [hget, ← ho2]
  · intro x hx hholds
    have hnz : isZero x = false := by
      rcases hx with ⟨elems, rfl⟩ | ⟨entries, rfl⟩ <;> simp [isZero]
    have hstr : strValue marshal x = marshal x := by
      rcases hx with ⟨elems, rfl⟩ | ⟨entries, rfl⟩ <;> rfl
    cases hmx : marshal x with
    | error e =>
      exfalso
      obtain ⟨fld, v⟩ := f
      rcases hholds with hv | hv <;> simp only at hv <;> subst hv <;>
        rcases hx with ⟨elems, rfl⟩ | ⟨entries, rfl⟩ <;>
        simp [fieldEntry, hnz, strValue, hmx] at ho2
    | ok str =>
      refine ⟨str, rfl, ?_⟩
      have hne : ¬ (omitEmpty f = true ∧ isZero x = true) := by
        rw [hnz]; simp
      have hent := fieldEntry_of_holds marshal f x str hholds
        (by rcases hx with ⟨elems, rfl⟩ | ⟨entries, rfl⟩ <;> intro e <;> simp)
        (by rcases hx with ⟨elems, rfl⟩ | ⟨entries, rfl⟩ <;> simp)
        hne (hstr.trans hmx)
      rw [hent] at ho2
      injection ho2 with ho2
      rw [hget, ← ho2]

/-- C9 (witness): a nil slice tagged `omitempty` next to an untagged-for-omission string. -/
theorem StructToMap_omits_nil_container_witness :
    FormMap.get [("hash", "abc")] "tags" = none :=
  (StructToMap_omits_nil_container marshalEmptyContainer
    [exportedField "Tags" "tags,omitempty" .nilSlice,
     exportedField "Hash" "hash" (.string "abc")]
    [("hash", "abc")] rfl (by decide)
    (exportedField "Tags" "tags,omitempty" .nilSlice) (by simp) rfl (by decide)).1
    (Or.inl (Or.inl rfl))

/-- C9 (counterexample): an exported field tagged `omitempty` that holds an allocated slice
with zero elements is not skipped; the result maps its wire name to `[]`. Likewise an allocated
empty map is emitted as its JSON text. -/
theorem StructToMap_keeps_empty_slice :
    StructToMap marshalEmptyContainer
      (.struct [exportedField "Tags" "tags,omitempty" (.slice [])]) = .ok [("tags", "[]")] ∧
    FormMap.get [("tags", "[]")] "tags" = some "[]" ∧
    StructToMap marshalEmptyContainer
      (.struct [exportedField "Limits" "limits,omitempty" (.map [])]) =
        .ok [("limits", "\x7b\x7d")] := by
  exact ⟨rfl, by decide, rfl⟩

end qbitorrent

/-! ## Theorems: idempotence of the whitelist -/

theorem replaceAllString_nil_idem (re : Char → Bool) (s : List Char) :
    replaceAllString re [] (replaceAllString re [] s) = replaceAllString re [] s := by
  rw [replaceAllString_nil_eq_filter, replaceAllString_nil_eq_filter, List.filter_filter]
  apply List.filter_congr
  intro c _
  simp

/-- C11: `whitelistString` is idempotent: for every string `s`, filtering the filtered string
again changes nothing. -/
theorem whitelistString_idempotent (s : String) :
    whitelistString (whitelistString s) = whitelistString s := by
  unfold whitelistString
  rw [replaceAllString_nil_idem]

/-! ## Theorems: the content step -/

theorem printListing_operator (humanizeBytes : Nat → String)
    (files : List qbitorrent.TorrentsFiles) (index : Nat) :
    ∀ e ∈ (printListing humanizeBytes files index).1, isOperatorEvent e = true := by
  induction files generalizing index with
  | nil => intro e he; simp [printListing] at he
  | cons item rest ih =>
    intro e he
    cases hn : item.Name with
    | none => simp [printListing, hn] at he
    | some name =>
      cases hs : item.Size with
      | none => simp [printListing, hn, hs] at he
      | some size =>
        simp only [printListing, hn, hs, List.mem_cons] at he
        rcases he with rfl | he
        · rfl
        · exact ih _ e he

theorem readIndex_operator (count : Nat) (scans : List (Option Int)) :
    ∀ e ∈ (readIndex count scans).1, isOperatorEvent e = true := by
  induction scans with
  | nil =>
    intro e he
    simp only [readIndex, List.mem_singleton] at he
    subst he; rfl
  | cons r rest ih =>
    intro e he
    cases r with
    | none =>
      simp only [readIndex, List.mem_cons] at he
      rcases he with rfl | rfl | he
      · rfl
      · rfl
      · exact ih e he
    | some index =>
      by_cases hb : index < 1 ∨ index > (count : Int)
      · simp only [readIndex, hb, if_true, List.mem_cons] at he
        rcases he with rfl | rfl | he
        · rfl
        · rfl
        · exact ih e he
      · simp only [readIndex, hb, if_false, List.mem_singleton] at he
        subst he; rfl

theorem PickFile_operator (humanizeBytes : Nat → String)
    (files : List qbitorrent.TorrentsFiles) (scans : List (Option Int)) :
    ∀ e ∈ (PickFile humanizeBytes files scans).1, isOperatorEvent e = true := by
  intro e he
  have h1 := printListing_operator humanizeBytes files 0
  have h2 := readIndex_operator files.length scans
  unfold PickFile at he
  simp only at he
  have hall : ∀ x ∈ Event.print "pick movie file:\n" ::
      ((printListing humanizeBytes files 0).1 ++ (readIndex files.length scans).1),
      isOperatorEvent x = true := by
    intro x hx
    rcases List.mem_cons.mp hx with rfl | hx
    · rfl
    · rcases List.mem_append.mp hx with hx | hx
      · exact h1 x hx
      · exact h2 x hx
  split at he
  · rcases List.mem_cons.mp he with rfl | he
    · rfl
    · exact h1 e he
  · split at he
    · exact hall e he
    · split at he
      · exact hall e he
      · exact hall e he

/-- The choice of the file only prints and reads: it sends nothing to the controller. -/
theorem selectFile_operator (mode : Mode) (humanizeBytes : Nat → String)
    (content : List qbitorrent.TorrentsFiles) (scans : List (Option Int)) :
    ∀ e ∈ (selectFile mode humanizeBytes content scans).1, isOperatorEvent e = true := by
  intro e he
  cases mode with
  | create => exact PickFile_operator humanizeBytes content scans e he
  | attach =>
    cases content with
    | nil => simp [selectFile] at he
    | cons first rest =>
      simp only [selectFile] at he
      split at he
      · exact PickFile_operator humanizeBytes _ scans e he
      · simp at he

theorem pollCount_append (a b : List Event) : pollCount (a ++ b) = pollCount a + pollCount b := by
  simp [pollCount, List.countP_append]

theorem pollCount_operator (events : List Event)
    (h : ∀ e ∈ events, isOperatorEvent e = true) : pollCount events = 0 := by
  unfold pollCount
  rw [List.countP_eq_zero]
  intro e he
  have := h e he
  cases e <;> simp_all [isOperatorEvent]

theorem pollCount_renameSelected (hash name : String) (content : List qbitorrent.TorrentsFiles)
    (file : qbitorrent.TorrentsFiles) (renameFileErr renameFolderErr : Option String) :
    pollCount (renameSelected hash name content file renameFileErr renameFolderErr).1 = 0 := by
  unfold renameSelected
  cases file.Name with
  | none => rfl
  | some path =>
    cases renameFileErr with
    | some err => rfl
    | none =>
      by_cases hlen : (content.length != 1) = true
      · cases renameFolderErr <;> simp [hlen, pollCount]
      · simp [hlen, pollCount]

/-- Handling a non-empty listing sends no further request to `/torrents/files`. -/
theorem pollCount_handleContent (mode : Mode) (humanizeBytes : Nat → String)
    (hash name : String) (content : List qbitorrent.TorrentsFiles) (scans : List (Option Int))
    (renameFileErr renameFolderErr : Option String) :
    pollCount (handleContent mode humanizeBytes hash name content scans renameFileErr
      renameFolderErr).1 = 0 := by
  have hsel := pollCount_operator _ (selectFile_operator mode humanizeBytes content scans)
  unfold handleContent
  cases hs : (selectFile mode humanizeBytes content scans).2 with
  | done file =>
    simp only [hs, pollCount_append, hsel, pollCount_renameSelected]
  | fatal msg => simpa only [hs] using hsel
  | panic => simpa only [hs] using hsel
  | waiting => simpa only [hs] using hsel

theorem pollCount_waitingTrace (hash : String) (k : Nat) :
    pollCount (waitingTrace hash k) = k := by
  induction k with
  | zero => rfl
  | succ k ih =>
    simp only [waitingTrace, pollCount, List.countP_cons] at ih ⊢
    simp [ih]

theorem contentLoop_skips_empty (mode : Mode) (humanizeBytes : Nat → String)
    (hash name : String) (scans : List (Option Int)) (renameFileErr renameFolderErr : Option String)
    (pre rest : List qbitorrent.PostResult)
    (hpre : ∀ r ∈ pre, qbitorrent.GetTorrentContent r = .ok []) :
    contentLoop mode humanizeBytes hash name scans renameFileErr renameFolderErr (pre ++ rest) =
      (waitingTrace hash pre.length ++
        (contentLoop mode humanizeBytes hash name scans renameFileErr renameFolderErr rest).1,
       (contentLoop mode humanizeBytes hash name scans renameFileErr renameFolderErr rest).2) := by
  induction pre with
  | nil => simp [waitingTrace]
  | cons r pre ih =>
    have hr := hpre r (List.mem_cons_self _ _)
    have ih2 := ih (fun x hx => hpre x (List.mem_cons_of_mem _ hx))
    simp only [List.cons_append, contentLoop, hr, List.length_nil, beq_self_eq_true, if_true,
      List.length_cons, waitingTrace]
    rw [show pre.append rest = pre ++ rest from rfl, ih2]


/-- C15: with the controller modelled as the sequence of what the requests to
`/torrents/files` deliver, the content loop of both workflows always starts with a poll; if the
first `k` responses are empty listings and the next is a non-empty one, it polls exactly `k + 1`
times (sleeping one second after each empty listing) and goes on with that listing; if instead
the next one is an error (a failed request, a status other than 200 or an undecodable body), the
run is ended by `log.Fatal` at that poll, after exactly `k + 1` polls, so an error is never taken
for an empty listing. -/
theorem contentLoop_polling (mode : Mode) (humanizeBytes : Nat → String) (hash name : String)
    (scans : List (Option Int)) (renameFileErr renameFolderErr : Option String) :
    (∀ responses, ∃ tail,
      (contentLoop mode humanizeBytes hash name scans renameFileErr renameFolderErr responses).1 =
        Event.getTorrentContent hash :: tail) ∧
    (∀ pre r rest content,
      (∀ x ∈ pre, qbitorrent.GetTorrentContent x = .ok []) →
      qbitorrent.GetTorrentContent r = .ok content → content ≠ [] →
      contentLoop mode humanizeBytes hash name scans renameFileErr renameFolderErr
          (pre ++ r :: rest) =
        (waitingTrace hash pre.length ++ Event.getTorrentContent hash ::
          (handleContent mode humanizeBytes hash name content scans renameFileErr
            renameFolderErr).1,
         (handleContent mode humanizeBytes hash name content scans renameFileErr
            renameFolderErr).2) ∧
      pollCount (contentLoop mode humanizeBytes hash name scans renameFileErr renameFolderErr
          (pre ++ r :: rest)).1 = pre.length + 1) ∧
    (∀ pre r rest err,
      (∀ x ∈ pre, qbitorrent.GetTorrentContent x = .ok []) →
      qbitorrent.GetTorrentContent r = .error err →
      contentLoop mode humanizeBytes hash name scans renameFileErr renameFolderErr
          (pre ++ r :: rest) =
        (waitingTrace hash pre.length ++ [Event.getTorrentContent hash], Ending.fatal err) ∧
      pollCount (contentLoop mode humanizeBytes hash name scans renameFileErr renameFolderErr
          (pre ++ r :: rest)).1 = pre.length + 1) ∧
    (∀ e, ∃ err, qbitorrent.GetTorrentContent (.failure e) = .error err) ∧
    (∀ statusCode body, statusCode ≠ 200 →
      ∃ err, qbitorrent.GetTorrentContent (.response statusCode body) = .error err) ∧
    (∀ e, ∃ err, qbitorrent.GetTorrentContent (.response 200 (.error e)) = .error err) := by
  refine ⟨?_, ?_, ?_, ?_, ?_, ?_⟩
  · intro responses
    cases responses with
    | nil => exact ⟨[], rfl⟩
    | cons r rest =>
      simp only [contentLoop]
      split
      · exact ⟨_, rfl⟩
      · split <;> exact ⟨_, rfl⟩
  · intro pre r rest content hpre hr hne
    have hlen : (content.length == 0) = false := by
      cases content with
      | nil => exact absurd rfl hne
      | cons c cs => rfl
    have hstep : contentLoop mode humanizeBytes hash name scans renameFileErr renameFolderErr
        (r :: rest) =
        (Event.getTorrentContent hash ::
          (handleContent mode humanizeBytes hash name content scans renameFileErr
            renameFolderErr).1,
         (handleContent mode humanizeBytes hash name content scans renameFileErr
            renameFolderErr).2) := by
      simp only [contentLoop, hr, hlen, Bool.false_eq_true, if_false]
    have hall := contentLoop_skips_empty mode humanizeBytes hash name scans renameFileErr
      renameFolderErr pre (r :: rest) hpre
    rw [hstep] at hall
    refine ⟨hall, ?_⟩
    rw [hall]
    simp only [pollCount_append, pollCount_waitingTrace]
    have hh := pollCount_handleContent mode humanizeBytes hash name content scans renameFileErr
      renameFolderErr
    simp only [pollCount, List.countP_cons] at hh ⊢
    simp [hh]
  · intro pre r rest err hpre hr
    have hstep : contentLoop mode humanizeBytes hash name scans renameFileErr renameFolderErr
        (r :: rest) = ([Event.getTorrentContent hash], Ending.fatal err) := by
      simp only [contentLoop, hr]
    have hall := contentLoop_skips_empty mode humanizeBytes hash name scans renameFileErr
      renameFolderErr pre (r :: rest) hpre
    rw [hstep] at hall
    refine ⟨hall, ?_⟩
    rw [hall]
    simp only [pollCount_append, pollCount_waitingTrace]
    simp [pollCount]
  · intro e
    exact ⟨_, rfl⟩
  · intro statusCode body hne
    refine ⟨qbitorrent.wrapWrongStatusCode statusCode, ?_⟩
    simp [qbitorrent.GetTorrentContent, hne]
  · intro e
    exact ⟨_, rfl⟩

/-- C15 (witness): in attach mode, two empty listings followed by a one-file listing give
three polls; two empty listings followed by status 500 give three polls and a fatal end. -/
theorem contentLoop_polling_witness :
    pollCount (contentLoop Mode.attach sampleHumanize "abc" "Name (2020)" [] none none
      ([listingResponse [], listingResponse []] ++
        listingResponse [sampleFile "movie.mkv" 700] :: [])).1 = 3 ∧
    contentLoop Mode.attach sampleHumanize "abc" "Name (2020)" [] none none
      ([listingResponse [], listingResponse []] ++
        qbitorrent.PostResult.response 500 (.ok [sampleFile "movie.mkv" 700]) ::
          [listingResponse [sampleFile "movie.mkv" 700]]) =
      (waitingTrace "abc" 2 ++ [Event.getTorrentContent "abc"],
        Ending.fatal "wrong status code 500: bad response") := by
  have h := contentLoop_polling Mode.attach sampleHumanize "abc" "Name (2020)" [] none none
  constructor
  · exact (h.2.1 [listingResponse [], listingResponse []]
      (listingResponse [sampleFile "movie.mkv" 700]) [] [sampleFile "movie.mkv" 700]
      (by intro x hx; simp at hx; subst hx; rfl) rfl (by decide)).2
  · exact (h.2.2.1 [listingResponse [], listingResponse []]
      (qbitorrent.PostResult.response 500 (.ok [sampleFile "movie.mkv" 700]))
      [listingResponse [sampleFile "movie.mkv" 700]] "wrong status code 500: bad response"
      (by intro x hx; simp at hx; subst hx; rfl) rfl).1


theorem split_last_slash (l : List Char) :
    ∃ dir b : List Char, l = dir ++ b ∧ '/' ∉ b ∧ (dir = [] ∨ dir.getLast? = some '/') := by
  induction l with
  | nil => exact ⟨[], [], rfl, by simp, Or.inl rfl⟩
  | cons x xs ih =>
    obtain ⟨dir, b, hl, hb, hdir⟩ := ih
    cases dir with
    | nil =>
      by_cases hx : x = '/'
      · exact ⟨[x], b, by simp [hl], hb, Or.inr (by simp [hx])⟩
      · refine ⟨[], x :: b, by simp [hl], ?_, Or.inl rfl⟩
        intro hmem
        rcases List.mem_cons.mp hmem with h | h
        · exact hx h.symm
        · exact hb h
    | cons d ds =>
      refine ⟨x :: d :: ds, b, by simp [hl], hb, Or.inr ?_⟩
      rcases hdir with h | h
      · cases h
      · rw [List.getLast?_cons_cons]
        exact h

/-- The invariant of the loop of `path.Ext`: the text already passed holds neither a slash
nor a dot. -/
theorem extLoop_spec (r : List Char) : ∀ suffix : List Char, '/' ∉ suffix → '.' ∉ suffix →
    IsExtOf (r.reverse ++ suffix) (extLoop r suffix) := by
  induction r with
  | nil =>
    intro suffix hs hd
    exact ⟨[], suffix, rfl, hs, Or.inl rfl, Or.inr ⟨hd, rfl⟩⟩
  | cons c rest ih =>
    intro suffix hs hd
    by_cases hc1 : c = '/'
    · subst hc1
      refine ⟨rest.reverse ++ ['/'], suffix, by simp, hs, Or.inr (by simp), Or.inr ⟨hd, ?_⟩⟩
      simp [extLoop]
    · by_cases hc2 : c = '.'
      · subst hc2
        obtain ⟨dir, b, hl, hb, hdir⟩ := split_last_slash rest.reverse
        refine ⟨dir, b ++ '.' :: suffix, by simp [hl], ?_, hdir, Or.inl ⟨b, suffix, rfl, hd, ?_⟩⟩
        · intro hmem
          rcases List.mem_append.mp hmem with h | h
          · exact hb h
          · rcases List.mem_cons.mp h with h | h
            · exact absurd h (by decide)
            · exact hs h
        · simp [extLoop]
      · have hs2 : '/' ∉ c :: suffix := by
          intro hmem
          rcases List.mem_cons.mp hmem with h | h
          · exact hc1 h.symm
          · exact hs h
        have hd2 : '.' ∉ c :: suffix := by
          intro hmem
          rcases List.mem_cons.mp hmem with h | h
          · exact hc2 h.symm
          · exact hd h
        have := ih (c :: suffix) hs2 hd2
        simp only [extLoop, hc1, hc2, if_false]
        simpa using this

/-- `path.Ext` yields the extension as the specification words it. -/
theorem Ext_spec (path : String) : IsExtOf path.data (Ext path).data := by
  have := extLoop_spec path.data.reverse [] (by simp) (by simp)
  simpa [Ext] using this

theorem selectFile_attach_single (humanizeBytes : Nat → String)
    (file : qbitorrent.TorrentsFiles) (scans : List (Option Int)) :
    selectFile Mode.attach humanizeBytes [file] scans = ([], Ending.done file) := rfl

/-- In create mode the choice of the file always starts by printing the prompt, whatever
the listing. -/
theorem selectFile_create_prompts (humanizeBytes : Nat → String)
    (content : List qbitorrent.TorrentsFiles) (scans : List (Option Int)) :
    ∃ tail, (selectFile Mode.create humanizeBytes content scans).1 =
      Event.print "pick movie file:\n" :: tail := by
  simp only [selectFile, PickFile]
  split
  · exact ⟨_, rfl⟩
  · split
    · exact ⟨_, rfl⟩
    · split <;> exact ⟨_, rfl⟩

/-- C12 (failing input): create mode with a listing of exactly one file. `run` calls
`PickFile` all the same: the prompt and the listing are printed and an index is read before the
rename request; without operator input the rename is never issued. Attach mode on the same
listing goes from the poll straight to the rename. -/
theorem contentStep_create_single_file_prompts :
    contentStep Mode.create sampleHumanize "abc" "Name (2020)"
      { contents := [listingResponse [sampleFile "movie.mkv" 700]], scans := [some 1],
        renameFileErr := none, renameFolderErr := none } =
      ([Event.getTorrentContent "abc", Event.print "pick movie file:\n",
        Event.print "1) movie.mkv\t700 B\n", Event.scanln,
        Event.renameFile
          { Hash := "abc", OldPath := "movie.mkv", NewPath := "Name (2020)/Name (2020).mkv" }], Ending.done ()) ∧
    contentStep Mode.create sampleHumanize "abc" "Name (2020)"
      { contents := [listingResponse [sampleFile "movie.mkv" 700]], scans := [],
        renameFileErr := none, renameFolderErr := none } =
      ([Event.getTorrentContent "abc", Event.print "pick movie file:\n",
        Event.print "1) movie.mkv\t700 B\n", Event.scanln], Ending.waiting) ∧
    contentStep Mode.attach sampleHumanize "abc" "Name (2020)"
      { contents := [listingResponse [sampleFile "movie.mkv" 700]], scans := [],
        renameFileErr := none, renameFolderErr := none } =
      ([Event.getTorrentContent "abc",
        Event.renameFile
          { Hash := "abc", OldPath := "movie.mkv", NewPath := "Name (2020)/Name (2020).mkv" }], Ending.done ()) := by
  refine ⟨?_, ?_, ?_⟩ <;> decide


theorem renameSelected_events (hash name : String) (content : List qbitorrent.TorrentsFiles)
    (file : qbitorrent.TorrentsFiles) (path : String) (renameFileErr renameFolderErr : Option String)
    (hne : content ≠ []) (hpath : file.Name = some path) :
    (renameSelected hash name content file renameFileErr renameFolderErr).1 =
      Event.renameFile
          { Hash := hash, OldPath := path, NewPath := name ++ "/" ++ name ++ Ext path } ::
        (if renameFileErr = none ∧ 1 < content.length then
          [Event.renameFolder { Hash := hash, OldPath := Dir path, NewPath := name }]
        else []) := by
  have hlen : (content.length != 1) = decide (1 < content.length) := by
    cases content with
    | nil => exact absurd rfl hne
    | cons c cs =>
      cases cs with
      | nil => rfl
      | cons d ds => simp
  unfold renameSelected
  rw [hpath]
  cases renameFileErr with
  | some err => simp
  | none =>
    by_cases h1 : 1 < content.length
    · cases renameFolderErr <;> simp [hlen, h1]
    · simp [hlen, h1]

/-- C13 (as amended): for every non-empty listing and selected file with path `p`, with `N`
the name computed once as `whitelistString("{title} ({year})")`, both workflows issue right after
the selection a renameFile request with oldPath `p` and newPath `N/N` followed by the extension of
`p` (the suffix of the last path element from its final dot, empty without a dot); a renameFolder
request (oldPath `path.Dir(p)`, newPath `N`) follows if and only if that renameFile request
succeeded and the listing has more than one file. -/
theorem handleContent_renames {F T : Type} (mode : Mode) (humanizeBytes : Nat → String)
    (hash : String) (year : T → Int) (movie : kinopoisk.Movie F T)
    (content : List qbitorrent.TorrentsFiles) (scans : List (Option Int))
    (renameFileErr renameFolderErr : Option String) (events : List Event)
    (file : qbitorrent.TorrentsFiles) (path : String) (hne : content ≠ [])
    (hsel : selectFile mode humanizeBytes content scans = (events, Ending.done file))
    (hpath : file.Name = some path) :
    (handleContent mode humanizeBytes hash (normalizedName year movie) content scans
        renameFileErr renameFolderErr).1 =
      events ++
        Event.renameFile
            { Hash := hash, OldPath := path,
              NewPath := normalizedName year movie ++ "/" ++ normalizedName year movie ++
                Ext path } ::
          (if renameFileErr = none ∧ 1 < content.length then
            [Event.renameFolder
              { Hash := hash, OldPath := Dir path, NewPath := normalizedName year movie }]
          else []) ∧
    IsExtOf path.data (Ext path).data ∧
    ((∃ e ∈ (handleContent mode humanizeBytes hash (normalizedName year movie) content scans
        renameFileErr renameFolderErr).1, isRenameFolder e = true) ↔
      (renameFileErr = none ∧ 1 < content.length)) ∧
    normalizedName year movie =
      whitelistString (movie.Name ++ " (" ++
        qbitorrent.sprintfInt (year movie.Premiere.World) ++ ")") := by
  have htrace : (handleContent mode humanizeBytes hash (normalizedName year movie) content scans
      renameFileErr renameFolderErr).1 =
      events ++ (renameSelected hash (normalizedName year movie) content file renameFileErr
        renameFolderErr).1 := by
    simp only [handleContent, hsel]
  have hren := renameSelected_events hash (normalizedName year movie) content file path
    renameFileErr renameFolderErr hne hpath
  have hop : ∀ e ∈ events, isOperatorEvent e = true := by
    have := selectFile_operator mode humanizeBytes content scans
    rw [hsel] at this
    exact this
  refine ⟨by rw [htrace, hren], Ext_spec path, ?_, rfl⟩
  rw [htrace, hren]
  constructor
  · rintro ⟨e, he, hfolder⟩
    rcases List.mem_append.mp he with he | he
    · have := hop e he
      cases e <;> simp_all [isOperatorEvent, isRenameFolder]
    · rcases List.mem_cons.mp he with rfl | he
      · simp [isRenameFolder] at hfolder
      · by_cases hc : renameFileErr = none ∧ 1 < content.length
        · exact hc
        · simp [hc] at he
  · intro hc
    refine ⟨Event.renameFolder
      { Hash := hash, OldPath := Dir path, NewPath := normalizedName year movie }, ?_, rfl⟩
    simp [hc]

/-- C13 (witness): attach mode, the title `Брат-2: Return` of the year 2000, a listing of two
files, the operator picks the second. -/
theorem handleContent_renames_witness :
    (handleContent Mode.attach sampleHumanize "abc"
        (normalizedName (fun _ => 2000) { sampleMovie [] [] with Name := "Брат-2: Return" })
        [sampleFile "Pack/a.avi" 700, sampleFile "Pack/b.part.mkv" 900] [some 2] none none).1 =
      [Event.print "pick movie file:\n", Event.print "1) Pack/a.avi\t700 B\n",
        Event.print "2) Pack/b.part.mkv\t900 B\n", Event.scanln,
        Event.renameFile
          { Hash := "abc", OldPath := "Pack/b.part.mkv",
            NewPath := "Брат-2 Return (2000)/Брат-2 Return (2000).mkv" },
        Event.renameFolder { Hash := "abc", OldPath := "Pack", NewPath := "Брат-2 Return (2000)" }] := by
  have h := (handleContent_renames Mode.attach sampleHumanize "abc" (fun _ => 2000)
    { sampleMovie [] [] with Name := "Брат-2: Return" }
    [sampleFile "Pack/a.avi" 700, sampleFile "Pack/b.part.mkv" 900] [some 2]
    none none
    [Event.print "pick movie file:\n", Event.print "1) Pack/a.avi\t700 B\n",
      Event.print "2) Pack/b.part.mkv\t900 B\n", Event.scanln]
    (sampleFile "Pack/b.part.mkv" 900) "Pack/b.part.mkv" (by decide) (by decide) rfl).1
  rw [h]
  decide

/-- C13 (counterexample): a listing of two files whose renameFile request fails. In both modes
the run ends by `log.Fatal` after the renameFile request and no renameFolder request is issued,
although the listing has more than one file. -/
theorem contentStep_failed_rename_no_folder :
    contentStep Mode.attach sampleHumanize "abc" "Name (2020)"
      { contents := [listingResponse [sampleFile "Pack/a.avi" 700, sampleFile "Pack/b.mkv" 900]],
        scans := [some 2], renameFileErr := some "wrong status code 409: bad response",
        renameFolderErr := none } =
      ([Event.getTorrentContent "abc", Event.print "pick movie file:\n",
        Event.print "1) Pack/a.avi\t700 B\n", Event.print "2) Pack/b.mkv\t900 B\n", Event.scanln,
        Event.renameFile
          { Hash := "abc", OldPath := "Pack/b.mkv", NewPath := "Name (2020)/Name (2020).mkv" }],
       Ending.fatal "wrong status code 409: bad response") ∧
    (contentStep Mode.create sampleHumanize "abc" "Name (2020)"
      { contents := [listingResponse [sampleFile "Pack/a.avi" 700, sampleFile "Pack/b.mkv" 900]],
        scans := [some 2], renameFileErr := some "wrong status code 409: bad response",
        renameFolderErr := none }).1.any isRenameFolder = false := by
  constructor <;> decide

/-- C14 (failing input): any Movie in create mode. `run` writes the output of `xml.Marshal`
as it is, without `xml.Header`, while `change` writes `xml.Header` followed by the same output;
the two documents differ for every rendering. -/
theorem sidecarRun_lacks_header (xmlMarshal : MovieNfo → Except String String)
    (rendering realSavePath name : String) (nfo : MovieNfo) :
    writeSidecar Mode.create (fun _ => .ok rendering) realSavePath name nfo =
      .ok { path := filepathJoin [realSavePath, name, name ++ ".nfo"], data := rendering,
            perm := 0o755 } ∧
    writeSidecar Mode.attach (fun _ => .ok rendering) realSavePath name nfo =
      .ok { path := filepathJoin [realSavePath, name, name ++ ".nfo"],
            data := xmlHeader ++ rendering, perm := 0o755 } ∧
    xmlHeader ++ rendering ≠ rendering ∧
    writeSidecar Mode.attach xmlMarshal realSavePath name nfo =
      (writeSidecar Mode.create xmlMarshal realSavePath name nfo).map
        (fun w => { w with data := xmlHeader ++ w.data }) := by
  refine ⟨rfl, rfl, ?_, ?_⟩
  · intro h
    have hlen := congrArg String.length h
    rw [String.length_append] at hlen
    have hh : xmlHeader.length = 39 := by decide
    omega
  · simp only [writeSidecar, sidecarChange, sidecarRun]
    cases xmlMarshal nfo <;> rfl


end Kftm
